import Mathlib

/-!
Shallow embedding of the matrix-archiver pipeline (src/scripts/update.py,
src/main.py): event normalisation, edit resolution, thread grouping,
chronological ordering, plain-text and HTML rendering, and the multi-room
driver.  Python dicts are modelled as insertion-ordered association lists
with last-write-wins update (the semantics of CPython dict assignment);
Python's stable `sorted` is modelled by `List.insertionSort`, which is a
stable sort; timestamps (`origin_server_ts`, milliseconds since the epoch)
are modelled as `Nat`.
-/

/-- The `m.relates_to` object of an event's content (update.py line 182:
`rel = c.get("m.relates_to", {})`).  Both fields are optional keys. -/
structure MRelates where
  rel_type : Option String
  event_id : Option String
deriving DecidableEq, Repr

/-- The `m.new_content` object of an edit event's content; only its `body`
key is read (update.py lines 198-200). -/
structure MNewContent where
  body : Option String
deriving DecidableEq, Repr

/-- An event's `content` object: optional `body`, optional `m.relates_to`,
optional `m.new_content` (presence of the latter marks an edit). -/
structure MContent where
  body : Option String
  m_relates_to : Option MRelates
  m_new_content : Option MNewContent
deriving DecidableEq, Repr

/-- One parsed event record, after JSON parsing and `source`-envelope
unwrapping (update.py line 177).  `origin_server_ts` is in milliseconds. -/
structure Event where
  type : String
  event_id : String
  sender : String
  origin_server_ts : Nat
  content : MContent
deriving DecidableEq, Repr

/-- An event after edit resolution; `edited` models the `_edited` marker set
by update.py line 203. -/
structure Resolved where
  ev : Event
  edited : Bool
deriving DecidableEq, Repr

/-- Python dict assignment `m[k] = v`: if the key is present its value is
replaced in place (keeping its position), otherwise the pair is appended. -/
def dset {K V : Type} [DecidableEq K] (m : List (K × V)) (k : K) (v : V) :
    List (K × V) :=
  if m.any (fun p => p.1 = k) then
    m.map (fun p => if p.1 = k then (k, v) else p)
  else m ++ [(k, v)]

/-- Python dict lookup `m.get(k)`. -/
def dget {K V : Type} [DecidableEq K] (m : List (K × V)) (k : K) : Option V :=
  (m.find? (fun p => p.1 = k)).map Prod.snd

/-- Python `collections.defaultdict(list)` append `m[k].append(v)`. -/
def dappend {K V : Type} [DecidableEq K] (m : List (K × List V)) (k : K)
    (v : V) : List (K × List V) :=
  if m.any (fun p => p.1 = k) then
    m.map (fun p => if p.1 = k then (k, p.2 ++ [v]) else p)
  else m ++ [(k, [v])]

/-- The `m.relates_to` object of an event, defaulting to the empty object
(update.py line 182 / main.py line 29). -/
def relOf (e : Event) : MRelates :=
  e.content.m_relates_to.getD ⟨none, none⟩

/-- update.py lines 183-186: an event is an edit iff its relation's
`rel_type` is `m.replace` or its content has an `m.new_content` key. -/
def isEdit (e : Event) : Bool :=
  (relOf e).rel_type == some "m.replace" || e.content.m_new_content.isSome

/-- The key under which an edit is stored: `rel.get("event_id")`
(update.py line 190), which may be absent. -/
def editTarget (e : Event) : Option String :=
  (relOf e).event_id

/-- One step of the originals/edits split (update.py lines 176-192): skip
non-message events; route edits into the edits dict keyed by their target
(newer overwrites older), originals into the originals dict keyed by
`event_id` (de-duplication, last write wins). -/
def splitStep (acc : List (String × Event) × List (Option String × Event))
    (ev : Event) : List (String × Event) × List (Option String × Event) :=
  if ev.type ≠ "m.room.message" then acc
  else if isEdit ev then (acc.1, dset acc.2 (editTarget ev) ev)
  else (dset acc.1 ev.event_id ev, acc.2)

/-- The `originals` dict after the split pass. -/
def originalsMap (l : List Event) : List (String × Event) :=
  (l.foldl splitStep ([], [])).1

/-- The `edits` dict after the split pass. -/
def editsMap (l : List Event) : List (Option String × Event) :=
  (l.foldl splitStep ([], [])).2

/-- Python `x or y` for an optional string `x` (falsy when `None` or empty)
and a string `y`, as in update.py lines 198-201. -/
def pyOr (a : Option String) (b : String) : String :=
  match a with
  | some s => if s = "" then b else s
  | none => b

/-- The replacement body taken from an edit event `rep` (update.py lines
198-201): the `m.new_content` body when present and non-empty, else the
edit's own top-level body, defaulting to the empty string. -/
def newBody (rep : Event) : String :=
  pyOr (rep.content.m_new_content.bind MNewContent.body)
    (rep.content.body.getD "")

/-- Replace an event's content body (update.py line 202). -/
def setBody (e : Event) (b : String) : Event :=
  { e with content := { e.content with body := some b } }

/-- update.py lines 194-205: merge the latest edit onto each original and
take `events = list(originals.values())`.  An original whose id is in the
edits dict gets the replacement body and the `_edited` mark. -/
def eventsOf (l : List Event) : List Resolved :=
  (originalsMap l).map (fun p =>
    match dget (editsMap l) (some p.1) with
    | some rep => ⟨setBody p.2 (newBody rep), true⟩
    | none => ⟨p.2, false⟩)

/-- update.py lines 212-216: the `threads` defaultdict, mapping a thread
root id to the ids of its replies in arrival order.  A resolved message
contributes iff its relation's `rel_type` is `m.thread`; the key is the
relation's `event_id` (the Python code indexes `rel["event_id"]` and would
raise on a thread relation without a target; theorems that need it carry a
well-formedness hypothesis, and the model defaults the key to ""). -/
def threadStep (m : List (String × List String)) (r : Resolved) :
    List (String × List String) :=
  if (relOf r.ev).rel_type == some "m.thread" then
    dappend m ((relOf r.ev).event_id.getD "") r.ev.event_id
  else m

/-- The `threads` defaultdict after one pass over the resolved events
(update.py lines 212-216). -/
def threadsMap (es : List Resolved) : List (String × List String) :=
  es.foldl threadStep []

/-- The set (as a list) of all reply ids, `{c for kids in threads.values()
for c in kids}` (update.py line 219). -/
def childIds (es : List Resolved) : List String :=
  (threadsMap es).flatMap Prod.snd

/-- Ordering of resolved messages by the sort key `when` (update.py line
220): the timestamp.  `datetime.utcfromtimestamp(ts/1000)` is monotone in
`ts` and equal exactly on equal `ts`. -/
def tsLe (a b : Resolved) : Prop :=
  a.ev.origin_server_ts ≤ b.ev.origin_server_ts

instance : DecidableRel tsLe := fun a b =>
  inferInstanceAs (Decidable (a.ev.origin_server_ts ≤ b.ev.origin_server_ts))

instance : IsTotal Resolved tsLe :=
  ⟨fun a b => Nat.le_total a.ev.origin_server_ts b.ev.origin_server_ts⟩

instance : IsTrans Resolved tsLe :=
  ⟨fun _ _ _ h₁ h₂ => Nat.le_trans h₁ h₂⟩

/-- update.py lines 217-220: the roots, i.e. the resolved messages that are
nobody's thread reply, sorted ascending by timestamp with Python's stable
`sorted` (modelled by the stable `insertionSort`). -/
def rootsOf (l : List Event) : List Resolved :=
  List.insertionSort tsLe
    ((eventsOf l).filter (fun r => ¬ (childIds (eventsOf l)).contains r.ev.event_id))

/-- The `by_id` lookup (update.py line 211).  The ids of `eventsOf l` are
pairwise distinct (they are dict keys), so `find?` is the dict lookup. -/
def byId (es : List Resolved) (c : String) : Option Resolved :=
  es.find? (fun r => r.ev.event_id == c)

/-- Sort key for reply ids: `when(by_id[c])` (update.py line 235). -/
def kidTs (es : List Resolved) (c : String) : Nat :=
  ((byId es c).map (fun r => r.ev.origin_server_ts)).getD 0

/-- Ordering of reply ids by the timestamp of the referenced message. -/
def kidLe (es : List Resolved) (a b : String) : Prop :=
  kidTs es a ≤ kidTs es b

instance (es : List Resolved) : DecidableRel (kidLe es) := fun a b =>
  inferInstanceAs (Decidable (kidTs es a ≤ kidTs es b))

instance (es : List Resolved) : IsTotal String (kidLe es) :=
  ⟨fun a b => Nat.le_total (kidTs es a) (kidTs es b)⟩

instance (es : List Resolved) : IsTrans String (kidLe es) :=
  ⟨fun _ _ _ h₁ h₂ => Nat.le_trans h₁ h₂⟩

/-- The reply ids of one root, `threads[root_id]` (empty for a missing
key, as with a defaultdict read in the rendering loops). -/
def kidsOf (es : List Resolved) (rootId : String) : List String :=
  (dget (threadsMap es) rootId).getD []

/-- The rendering order of both output documents (update.py lines 233-236
and 270-273): each root at level 0 followed by its replies, sorted by
timestamp, at level 1. -/
def renderSeq (l : List Event) : List (Resolved × Nat) :=
  (rootsOf l).flatMap (fun root =>
    (root, 0) ::
      ((List.insertionSort (kidLe (eventsOf l))
          (kidsOf (eventsOf l) root.ev.event_id)).filterMap
        (byId (eventsOf l))).map (fun r => (r, 1)))

/-- Zero-padded two-digit decimal, as produced by `strftime`. -/
def pad2 (n : Nat) : String :=
  if n < 10 then "0" ++ toString n else toString n

/-- Zero-padded four-digit decimal, as produced by `strftime` for `%Y`. -/
def pad4 (n : Nat) : String :=
  if n < 10 then "000" ++ toString n
  else if n < 100 then "00" ++ toString n
  else if n < 1000 then "0" ++ toString n
  else toString n

/-- Proleptic Gregorian date from a day count, days measured from
0000-03-01 (the standard civil-from-days algorithm); returns
(year-of-March-era, month, day) corrected to calendar years. -/
def civilOf (z : Nat) : Nat × Nat × Nat :=
  let era := z / 146097
  let doe := z % 146097
  let yoe := (doe - doe / 1460 + doe / 36524 - doe / 146096) / 365
  let y := yoe + era * 400
  let doy := doe - (365 * yoe + yoe / 4 - yoe / 100)
  let mp := (5 * doy + 2) / 153
  let d := doy - (153 * mp + 2) / 5 + 1
  let m := if mp < 10 then mp + 3 else mp - 9
  (if m ≤ 2 then y + 1 else y, m, d)

/-- Calendar date of a day count measured from the epoch 1970-01-01. -/
def ymdOf (days : Nat) : Nat × Nat × Nat :=
  civilOf (days + 719468)

/-- `datetime.utcfromtimestamp(ms/1000).strftime("%Y-%m-%d %H:%M")`
(update.py lines 77, 230, 265): UTC date and time at minute precision. -/
def fmtYmdHM (ms : Nat) : String :=
  let s := ms / 1000
  let date := ymdOf (s / 86400)
  let sod := s % 86400
  pad4 date.1 ++ "-" ++ pad2 date.2.1 ++ "-" ++ pad2 date.2.2 ++ " " ++
    pad2 (sod / 3600) ++ ":" ++ pad2 (sod % 3600 / 60)

/-- The export stamp `datetime.utcnow().strftime("%Y-%m-%d %H:%M UTC")`
(update.py lines 223 and 239); the current time is passed in as `now` in
milliseconds since the epoch. -/
def fmtStamp (now : Nat) : String :=
  fmtYmdHM now ++ " UTC"

/-- Strip all leading `@` characters (Python `str.lstrip("@")`). -/
def dropAts : List Char → List Char
  | [] => []
  | c :: r => if c = '@' then dropAts r else c :: r

/-- `nice_user` (update.py line 78): `u.lstrip("@").split(":", 1)[0]`. -/
def niceUser (u : String) : String :=
  ⟨(dropAts u.data).takeWhile (fun c => c ≠ ':')⟩

/-- UTF-8 encoding of one character as its byte values. -/
def utf8Bytes (c : Char) : List Nat :=
  let n := c.toNat
  if n < 128 then [n]
  else if n < 2048 then [192 + n / 64, 128 + n % 64]
  else if n < 65536 then [224 + n / 4096, 128 + n / 64 % 64, 128 + n % 64]
  else [240 + n / 262144, 128 + n / 4096 % 64, 128 + n / 64 % 64, 128 + n % 64]

/-- Bytes left unescaped by `urllib.parse.quote` with `safe=""`:
ASCII letters, digits, and `_ . ~ -`. -/
def quoteSafe (b : Nat) : Bool :=
  (65 ≤ b && b ≤ 90) || (97 ≤ b && b ≤ 122) || (48 ≤ b && b ≤ 57) ||
    b == 95 || b == 46 || b == 126 || b == 45

/-- Upper-case hexadecimal digit, as `quote` emits. -/
def hexUpper (n : Nat) : Char :=
  if n < 10 then Char.ofNat (48 + n) else Char.ofNat (55 + n)

/-- One byte of `quote(s, safe="").replace("%", "_")` (update.py line 79):
safe bytes verbatim, others percent-encoded; since every `%` in the quoted
result heads an escape, the later replace turns exactly those into `_`. -/
def quoteByte (b : Nat) : List Char :=
  if quoteSafe b then [Char.ofNat b] else ['_', hexUpper (b / 16), hexUpper (b % 16)]

/-- `slug` (update.py line 79). -/
def slugOf (s : String) : String :=
  ⟨(s.data.flatMap utf8Bytes).flatMap quoteByte⟩

/-- Repeat a string, Python `s * n`. -/
def repStr (s : String) (n : Nat) : String :=
  String.join (List.replicate n s)

/-- One plain-text message line (update.py lines 226-231). -/
def txtMsgLine (p : Resolved × Nat) : String :=
  let arrow := if p.2 ≠ 0 then "↳ " else ""
  let body := (p.1.ev.content.body.getD "") ++
    (if p.1.edited then " [edited]" else "")
  repStr "  " p.2 ++ arrow ++ fmtYmdHM p.1.ev.origin_server_ts ++ " " ++
    niceUser p.1.ev.sender ++ ": " ++ body

/-- The list `txt` of plain-text lines (update.py lines 222-236): two `#`
header comment lines, then one line per rendered message. -/
def txtLines (title : String) (now : Nat) (l : List Event) : List String :=
  ["# room: " ++ title, "# exported: " ++ fmtStamp now] ++
    (renderSeq l).map txtMsgLine

/-- The written `room_log.txt` document (update.py line 276). -/
def txtDoc (title : String) (now : Nat) (l : List Event) : String :=
  String.intercalate "\n" (txtLines title now l) ++ "\n"

/-- A character of HTML output together with its provenance: `src = true`
means the character was copied verbatim from the message body, `src = false`
means it was produced by the formatter (template literals and escape
sequences).  `format_body` is the erasure of this ghost bit; the provenance
is what the escaping-safety property quantifies over. -/
structure TChar where
  ch : Char
  src : Bool
deriving DecidableEq, Repr

/-- Tag a body text as body-sourced characters. -/
def tOf (s : List Char) : List TChar :=
  s.map (fun c => ⟨c, true⟩)

/-- Tag a formatter template literal. -/
def tLit (s : String) : List TChar :=
  s.data.map (fun c => ⟨c, false⟩)

/-- `html.escape` on one character (quote=True): the ampersand, the angle
brackets, the double quote and the single quote become entities.
`html.escape` replaces the ampersand first, so its effect is exactly this
character-wise map. -/
def escTChar (t : TChar) : List TChar :=
  if t.ch = '&' then tLit "&amp;"
  else if t.ch = '<' then tLit "&lt;"
  else if t.ch = '>' then tLit "&gt;"
  else if t.ch.toNat = 34 then tLit "&quot;"
  else if t.ch.toNat = 39 then tLit "&#x27;"
  else [t]

/-- `html.escape` on a tagged string. -/
def hEscapeT (s : List TChar) : List TChar :=
  s.flatMap escTChar

/-- Python regex `\s` (whitespace) on a character: ASCII whitespace plus
the Unicode whitespace code points matched in `str` patterns. -/
def pyWS (c : Char) : Bool :=
  [9, 10, 11, 12, 13, 28, 29, 30, 31, 32, 133, 160, 5760, 8232, 8233,
    8239, 8287, 12288].contains c.toNat ||
    (8192 ≤ c.toNat && c.toNat ≤ 8202)

/-- Python regex `\w` on a character, restricted to ASCII word characters
(letters, digits, underscore); the full Unicode word class only widens the
fence-language token and never contains HTML metacharacters. -/
def pyWord (c : Char) : Bool :=
  c.isAlphanum || c = '_'

/-- Match the literal `https?://` at the head of the input and return the
matched characters and the remainder. -/
def tryHttp (s : List TChar) : Option (List TChar × List TChar) :=
  if (s.take 7).map TChar.ch = "http://".data then some (s.take 7, s.drop 7)
  else if (s.take 8).map TChar.ch = "https://".data then
    some (s.take 8, s.drop 8)
  else none

/-- Try the regex `\[([^\]]+?)\]\((https?://[^\s)]+)\)` (update.py line 91)
at the head of the input; on success return the label group, the url group,
and the total number of characters consumed.  The lazy label runs to the
first `]` (it cannot contain one), and the greedy url run cannot contain
whitespace or `)`. -/
def tryMdlink : List TChar → Option (List TChar × List TChar × Nat)
  | [] => none
  | t :: rest =>
    if t.ch = '[' then
      let label := rest.takeWhile (fun x => x.ch ≠ ']')
      if label.isEmpty then none else
      match rest.drop label.length with
      | a :: b :: r2 =>
        if a.ch = ']' ∧ b.ch = '(' then
          match tryHttp r2 with
          | some (pfx, r3) =>
            let run := r3.takeWhile (fun x => ¬ pyWS x.ch ∧ x.ch ≠ ')')
            if run.isEmpty then none else
            match r3.drop run.length with
            | c :: _ =>
              if c.ch = ')' then
                some (label, pfx ++ run,
                  1 + label.length + 2 + (pfx.length + run.length) + 1)
              else none
            | [] => none
          | none => none
        else none
      | _ => none
    else none

/-- Template literal `<a href="`. -/
def aOpen : List TChar := tLit "<a href=\""

/-- Template literal `" target="_blank" rel="noopener">`. -/
def aMid : List TChar := tLit "\" target=\"_blank\" rel=\"noopener\">"

/-- Template literal `</a>`. -/
def aClose : List TChar := tLit "</a>"

/-- The `_re_mdlink.sub` scan (update.py lines 97-98): at each position try
the markdown-link pattern; on a match emit the anchor replacement and
continue after the match, otherwise copy one character.  Fuel is the input
length, which the scan never exhausts (each step consumes at least one
character). -/
def mdlinkGo : Nat → List TChar → List TChar
  | 0, _ => []
  | _ + 1, [] => []
  | fuel + 1, t :: rest =>
    match tryMdlink (t :: rest) with
    | some (lab, url, n) =>
      aOpen ++ url ++ aMid ++ lab ++ aClose ++ mdlinkGo fuel ((t :: rest).drop n)
    | none => t :: mdlinkGo fuel rest

/-- `_re_mdlink.sub` over a whole string. -/
def mdlinkSub (s : List TChar) : List TChar :=
  mdlinkGo (s.length + 1) s

/-- Try the regex `(https?://[^\s<]+)` (update.py line 92) at the head of
the input; on success return the url group and the characters consumed. -/
def tryRawurl (s : List TChar) : Option (List TChar × Nat) :=
  match tryHttp s with
  | some (pfx, r) =>
    let run := r.takeWhile (fun x => ¬ pyWS x.ch ∧ x.ch ≠ '<')
    if run.isEmpty then none else
    some (pfx ++ run, pfx.length + run.length)
  | none => none

/-- The `_re_rawurl.sub` scan with its negative lookbehind (update.py line
92): `prev` is the character preceding the current position in the source
(none at the start).  When the previous character is a double quote, a
single quote or a closing angle bracket, no match may start here. -/
def rawurlGo : Nat → Option Char → List TChar → List TChar
  | 0, _, _ => []
  | _ + 1, _, [] => []
  | fuel + 1, prev, t :: rest =>
    if prev = some (Char.ofNat 34) ∨ prev = some (Char.ofNat 39) ∨
        prev = some '>' then
      t :: rawurlGo fuel (some t.ch) rest
    else
      match tryRawurl (t :: rest) with
      | some (url, n) =>
        aOpen ++ url ++ aMid ++ url ++ aClose ++
          rawurlGo fuel (((t :: rest).take n).getLast?.map TChar.ch)
            ((t :: rest).drop n)
      | none => t :: rawurlGo fuel (some t.ch) rest

/-- `_re_rawurl.sub` over a whole string. -/
def rawurlSub (s : List TChar) : List TChar :=
  rawurlGo (s.length + 1) none s

/-- `md_links` (update.py lines 96-101): markdown links first, then bare
urls. -/
def mdLinksT (s : List TChar) : List TChar :=
  rawurlSub (mdlinkSub s)

/-- Try the regex `` `([^`\n]+?)` `` (update.py line 94) at the head of the
input: a backtick, a non-empty newline-free span to the next backtick, and
the closing backtick; returns the content group and characters consumed. -/
def tryInline : List TChar → Option (List TChar × Nat)
  | [] => none
  | t :: rest =>
    if t.ch.toNat = 96 then
      let content := rest.takeWhile (fun x => x.ch.toNat ≠ 96)
      match rest.drop content.length with
      | _ :: _ =>
        if content.isEmpty ∨ content.any (fun x => x.ch = '\n') then none
        else some (content, content.length + 2)
      | [] => none
    else none

/-- Template literal `<code>`. -/
def cOpen : List TChar := tLit "<code>"

/-- Template literal `</code>`. -/
def cClose : List TChar := tLit "</code>"

/-- The inline-code pass over one text part (update.py lines 120-126): text
between code spans is escaped and linkified, code-span contents are escaped
into a `<code>` element.  `acc` holds the pending text chunk in reverse. -/
def inlineGo : Nat → List TChar → List TChar → List TChar
  | 0, _, _ => []
  | _ + 1, acc, [] => mdLinksT (hEscapeT acc.reverse)
  | fuel + 1, acc, t :: rest =>
    match tryInline (t :: rest) with
    | some (content, n) =>
      mdLinksT (hEscapeT acc.reverse) ++ cOpen ++ hEscapeT content ++
        cClose ++ inlineGo fuel [] ((t :: rest).drop n)
    | none => inlineGo fuel (t :: acc) rest

/-- The inline-code pass over a whole text part. -/
def inlineSub (s : List TChar) : List TChar :=
  inlineGo (s.length + 1) [] s

/-- Whether the input starts with three backticks. -/
def isTriple (s : List TChar) : Bool :=
  match s with
  | a :: b :: c :: _ => a.ch.toNat == 96 && b.ch.toNat == 96 && c.ch.toNat == 96
  | _ => false

/-- Index of the first occurrence of three consecutive backticks. -/
def findTriple : List TChar → Option Nat
  | [] => none
  | t :: rest =>
    if isTriple (t :: rest) then some 0 else (findTriple rest).map (· + 1)

/-- Try the regex `` ```(\w+)?\n([\s\S]*?)``` `` (update.py line 93) at the
head of the input: three backticks, an optional word-character language tag
that must be followed by a newline, then the lazy content up to the next
three backticks.  Returns the language group (empty when absent, matching
`data.group(1) or ""`), the content group and characters consumed. -/
def tryFence (s : List TChar) : Option (List TChar × List TChar × Nat) :=
  if isTriple s then
    let r1 := s.drop 3
    let lang := r1.takeWhile (fun x => pyWord x.ch)
    match r1.drop lang.length with
    | u :: r2 =>
      if u.ch = '\n' then
        match findTriple r2 with
        | some i => some (lang, r2.take i, 3 + lang.length + 1 + i + 3)
        | none => none
      else none
    | [] => none
  else none

/-- Template literal `<pre><code class="`. -/
def preOpen : List TChar := tLit "<pre><code class=\""

/-- Template literal `">`. -/
def preMid : List TChar := tLit "\">"

/-- Template literal `</code></pre>`. -/
def preClose : List TChar := tLit "</code></pre>"

/-- The fence pass over the whole body (update.py lines 105-119): text
between fences goes through the inline-code pass, a fenced block becomes a
`<pre><code class="lang">` element with escaped contents (the language tag
is copied raw).  `acc` holds the pending text chunk in reverse. -/
def fenceGo : Nat → List TChar → List TChar → List TChar
  | 0, _, _ => []
  | _ + 1, acc, [] => inlineSub acc.reverse
  | fuel + 1, acc, t :: rest =>
    match tryFence (t :: rest) with
    | some (lang, code, n) =>
      inlineSub acc.reverse ++ preOpen ++ lang ++ preMid ++ hEscapeT code ++
        preClose ++ fenceGo fuel [] ((t :: rest).drop n)
    | none => fenceGo fuel (t :: acc) rest

/-- `format_body` (update.py lines 103-127) on provenance-tagged
characters. -/
def formatBodyT (s : List Char) : List TChar :=
  fenceGo (s.length + 1) [] (tOf s)

/-- `format_body` (update.py lines 103-127): HTML-escape, linkify and
highlight code blocks and inline code; the provenance bit is erased. -/
def format_body (s : String) : String :=
  ⟨(formatBodyT s.data).map TChar.ch⟩

/-- `html.escape` on a plain string (used for titles and room ids). -/
def escStr (s : String) : String :=
  ⟨(hEscapeT (tOf s.data)).map TChar.ch⟩

/-- The css class of one HTML message div (update.py line 262). -/
def htmlClass (p : Resolved × Nat) : String :=
  "msg" ++ (if p.2 ≠ 0 then " reply" else "") ++
    (if p.1.edited then " edited" else "")

/-- One HTML message div (update.py lines 261-268); `color` is the
per-sender colour function `rich_color` (a pure function of the sender,
kept abstract since its value is an opaque hex string). -/
def htmlMsgLine (color : String → String) (p : Resolved × Nat) : String :=
  "<div class=\x27" ++ htmlClass p ++ "\x27>" ++
    "<time>" ++ fmtYmdHM p.1.ev.origin_server_ts ++ "</time>&ensp;" ++
    "<span class=\x27u\x27 style=\x27color:" ++ color p.1.ev.sender ++ "\x27>" ++
    niceUser p.1.ev.sender ++ "</span>: " ++
    format_body (p.1.ev.content.body.getD "") ++ "</div>"

/-- The fixed HTML preamble lines (update.py lines 240-259). -/
def htmlHead (title : String) (now : Nat) : List String :=
  ["<!doctype html><meta charset=utf-8>",
   "<title>" ++ escStr title ++ " – archive</title>",
   "<style>",
   "body\x7bmargin:0 auto;max-width:75ch;font:15px/1.55 system-ui," ++
     "-apple-system,\x27Segoe UI\x27,Helvetica,Arial,sans-serif;" ++
     "background:#141414;color:#e6e6e6;padding:2rem\x7d",
   ".msg\x7bwhite-space:pre-wrap;margin:0.3em 0\x7d",
   ".edited\x7bopacity:0.75;font-style:italic\x7d",
   ".reply\x7bmargin-left:2ch\x7d",
   "pre\x7bbackground:#1e1e1e;padding:0.6em;border-radius:4px;overflow:auto\x7d",
   "code\x7bfont-family:ui-monospace,monospace\x7d",
   ".u\x7bfont-weight:600\x7d",
   "time\x7bcolor:#888\x7d",
   "a\x7bcolor:#9cf;text-decoration:none\x7d",
   "</style>",
   "<h1>" ++ escStr title ++ "</h1>",
   "<p><small>last updated " ++ fmtStamp now ++ "</small></p>",
   "<p><a href=\x27room_log.txt\x27>⇩ plaintext</a>  ·  " ++
     "<a href=\x27../../\x27>⇦ all rooms</a></p>",
   "<hr>"]

/-- The list `html_lines` (update.py lines 240-273). -/
def htmlLinesOf (color : String → String) (title : String) (now : Nat)
    (l : List Event) : List String :=
  htmlHead title now ++ (renderSeq l).map (htmlMsgLine color)

/-- The written `index.html` document of one room (update.py line 277). -/
def htmlDoc (color : String → String) (title : String) (now : Nat)
    (l : List Event) : String :=
  String.intercalate "\n" (htmlLinesOf color title now l) ++ "\n"

/-- The outcome of `archive_room` (update.py lines 132-280): the files that
were written (none when the resolved event list is empty, update.py lines
207-208) and the returned `(room, title, slug(room))` tuple, which is the
same on both paths. -/
structure RoomResult where
  files : Option (String × String)
  meta : String × String × String
deriving DecidableEq, Repr

/-- The pure core of `archive_room`: given the room id, the title resolved
from room metadata, the current time and the fetched events, either write
nothing (empty resolved set) or produce the two documents; both paths
return the `(room, title, slug(room))` tuple. -/
def archiveRoom (color : String → String) (room title : String) (now : Nat)
    (l : List Event) : RoomResult :=
  if (eventsOf l).isEmpty then ⟨none, (room, title, slugOf room)⟩
  else ⟨some (txtDoc title now l, htmlDoc color title now l),
    (room, title, slugOf room)⟩

/-- The per-room loop of the driver (update.py lines 288-295): each room's
archiving outcome is given by `outcome` (`.error` models `archive_room`
raising an exception, which the loop catches and logs); successful metas
are collected in order. -/
def runRooms (outcome : String → Except String (String × String × String))
    (rooms : List String) : List (String × String × String) :=
  rooms.foldl (fun acc rid =>
    match outcome rid with
    | .ok m => acc ++ [m]
    | .error _ => acc) []

/-- Python `str.lower` (ASCII case folding as used on the titles). -/
def strLower (s : String) : String :=
  ⟨s.data.map Char.toLower⟩

/-- Title ordering for the room index, `key=lambda t: t[1].lower()`
(update.py line 297). -/
def titleLe (a b : String × String × String) : Prop :=
  strLower a.2.1 ≤ strLower b.2.1

instance : DecidableRel titleLe := fun a b =>
  inferInstanceAs (Decidable (strLower a.2.1 ≤ strLower b.2.1))

/-- The `items` listing of the root index (update.py lines 299-302). -/
def indexItems (ms : List (String × String × String)) : String :=
  String.intercalate "\n" (ms.map (fun m =>
    "<li><a href=\x27archive/" ++ m.2.2 ++ "/index.html\x27>" ++
      escStr m.2.1 ++ "</a>" ++ "<br><small>" ++ escStr m.1 ++ "</small></li>"))

/-- The root `index.html` document (update.py lines 304-316), written after
every room was attempted. -/
def indexDoc (ms : List (String × String × String)) : String :=
  String.intercalate "\n"
    (["<!doctype html><meta charset=utf-8>",
      "<title>Archived rooms</title>",
      "<style>",
      "body\x7bmargin:0 auto;max-width:65ch;font:16px/1.55 system-ui," ++
        "-apple-system,\x27Segoe UI\x27,Helvetica,Arial,sans-serif;" ++
        "background:#141414;color:#e6e6e6;padding:2rem\x7d",
      "a\x7bcolor:#9cf;text-decoration:none\x7d",
      "</style>",
      "<h1>Archived rooms</h1>",
      "<ul>", indexItems ms, "</ul>"]) ++ "\n"

/-- The whole driver run (update.py lines 288-316): archive every room,
absorbing per-room failures, sort the collected metas by lower-cased title
(Python's stable `list.sort`) and write the root index. -/
def mainRun (outcome : String → Except String (String × String × String))
    (rooms : List String) : String :=
  indexDoc (List.insertionSort titleLe (runRooms outcome rooms))


/-- An event that the split pass treats as an original message. -/
def isOriginal (e : Event) : Bool :=
  e.type == "m.room.message" && !(isEdit e)


/-- The original message events of the input, in arrival order. -/
def originalsOf (l : List Event) : List Event :=
  l.filter isOriginal


/-- An event that the split pass stores as an edit under key `t`. -/
def isEditTo (t : String) (e : Event) : Bool :=
  e.type == "m.room.message" && isEdit e && editTarget e == some t


/-- The edit events targeting `t`, in arrival order. -/
def editsTo (l : List Event) (t : String) : List Event :=
  l.filter (isEditTo t)


/-- Pairwise-distinct event ids among the original message events of the
input (the invariant stated in the specification for a fetched batch). -/
def OrigNodup (l : List Event) : Prop :=
  (originalsOf l).Pairwise (fun a b => a.event_id ≠ b.event_id)


/-- The edit-resolution of one original: apply the last-arrived edit
targeting its id, if any. -/
def resolveOne (l : List Event) (e : Event) : Resolved :=
  match (editsTo l e.event_id).getLast? with
  | some rep => ⟨setBody e (newBody rep), true⟩
  | none => ⟨e, false⟩


/-- The reply ids contributed by a list of resolved messages to one thread
root `t`, in arrival order. -/
def kidsFilter (es : List Resolved) (t : String) : List String :=
  (es.filter (fun r => (relOf r.ev).rel_type == some "m.thread" &&
    (relOf r.ev).event_id.getD "" == t)).map (fun r => r.ev.event_id)

/-- Shorthand for a message-type event. -/
def mkMsg (i s : String) (ts : Nat) (b : Option String)
    (rel : Option MRelates) (nc : Option MNewContent) : Event :=
  ⟨"m.room.message", i, s, ts, ⟨b, rel, nc⟩⟩

/-- Example: a plain root message. -/
def exHello : Event := mkMsg "$a" "@u1:hs" 100 (some "hello") none none

/-- Example: a thread reply to `exHello`. -/
def exReply : Event :=
  mkMsg "$b" "@u2:hs" 200 (some "hi") (some ⟨some "m.thread", some "$a"⟩) none

/-- Example: a replacement edit of `exHello`. -/
def exEdit : Event :=
  mkMsg "$c" "@u1:hs" 150 (some "* HELLO") (some ⟨some "m.replace", some "$a"⟩)
    (some ⟨some "HELLO"⟩)

/-- Example: two roots with equal timestamps, arriving in the order
`$b`, `$a` (so the lexically larger id arrives first). -/
def exTieB : Event := mkMsg "$b" "@u:hs" 500 (some "B") none none

/-- Example: the tied root with the lexically smaller id. -/
def exTieA : Event := mkMsg "$a" "@u:hs" 500 (some "A") none none

/-- Example: a message whose thread relation targets itself. -/
def exSelf : Event :=
  mkMsg "$s" "@u:hs" 9 (some "self") (some ⟨some "m.thread", some "$s"⟩) none

/-- Example: a thread reply whose target is not in the batch. -/
def exOrphan : Event :=
  mkMsg "$o" "@u:hs" 300 (some "orph") (some ⟨some "m.thread", some "$zz"⟩) none

/-- Example: an original that will receive an edit. -/
def exEdM : Event := mkMsg "$m" "@u:hs" 1 (some "x") none none

/-- Example: an edit of `exEdM` whose `m.new_content` body is present but
empty and whose top-level body is "fallback". -/
def exEdE : Event :=
  mkMsg "$e" "@u:hs" 2 (some "fallback") (some ⟨some "m.replace", some "$m"⟩)
    (some ⟨some ""⟩)

/-- Modelled from the claim's wording for the edit body: "taking the
edit's structured new-content body when present, else the edit's own
top-level body".  Compare with `newBody`, which follows the code's
Python `or` and also falls back when the new-content body is empty. -/
def specNewBody (rep : Event) : String :=
  match rep.content.m_new_content.bind MNewContent.body with
  | some b => b
  | none => rep.content.body.getD ""

/-- Modelled from the spec's words: an ISO-8601 date-time in UTC at second
precision, `YYYY-MM-DDTHH:MM:SS` followed by `Z` or by the offset
`+00:00`. -/
def isIso8601UtcSec (s : String) : Bool :=
  let cs := s.data
  let digit := fun (i : Nat) => (cs.getD i ' ').isDigit
  let isch := fun (i : Nat) (c : Char) => cs.getD i ' ' == c
  (cs.length == 20 || cs.length == 25) &&
  digit 0 && digit 1 && digit 2 && digit 3 && isch 4 '-' &&
  digit 5 && digit 6 && isch 7 '-' && digit 8 && digit 9 &&
  isch 10 'T' && digit 11 && digit 12 && isch 13 ':' &&
  digit 14 && digit 15 && isch 16 ':' && digit 17 && digit 18 &&
  (if cs.length == 20 then isch 19 'Z'
   else isch 19 '+' && isch 20 '0' && isch 21 '0' && isch 22 ':' &&
     isch 23 '0' && isch 24 '0')


/-- Safety of one output character: if it was copied from the message body
(rather than emitted by the formatter), it is none of the HTML
metacharacters.  This is the escaping-safety property of `format_body`:
body text can never contribute raw markup. -/
def srcOK (x : TChar) : Prop :=
  x.src = true → x.ch ≠ '<' ∧ x.ch ≠ '>' ∧ x.ch ≠ '&'


/-- At most one edit per target: any two message-type edit events in the
batch have different targets.  Without this, which edit wins depends on
arrival order. -/
def EditsNodup (l : List Event) : Prop :=
  l.Pairwise (fun a b =>
    (a.type = "m.room.message" ∧ isEdit a = true) →
    (b.type = "m.room.message" ∧ isEdit b = true) →
    editTarget a ≠ editTarget b)

/-- Pairwise-distinct timestamps among the original message events.
Without this, the order of equal-timestamp events depends on arrival
order (the sort is stable). -/
def TsNodup (l : List Event) : Prop :=
  (originalsOf l).Pairwise
    (fun a b => a.origin_server_ts ≠ b.origin_server_ts)


theorem dget_nil {K V : Type} [DecidableEq K] (k : K) :
    dget ([] : List (K × V)) k = none := rfl

theorem dget_cons {K V : Type} [DecidableEq K] (a : K × V) (m : List (K × V))
    (k : K) : dget (a :: m) k = if a.1 = k then some a.2 else dget m k := by
  simp only [dget, List.find?_cons]
  by_cases h : a.1 = k <;> simp [h]

theorem dget_append {K V : Type} [DecidableEq K] (m₁ m₂ : List (K × V))
    (k : K) : dget (m₁ ++ m₂) k = (dget m₁ k).or (dget m₂ k) := by
  simp only [dget, List.find?_append]
  cases List.find? (fun p => p.1 = k) m₁ <;> simp

theorem dget_eq_none_of_not_any {K V : Type} [DecidableEq K]
    {m : List (K × V)} {k : K} (h : ¬ m.any (fun p => p.1 = k)) :
    dget m k = none := by
  induction m with
  | nil => rfl
  | cons a m ih =>
    simp only [List.any_cons, Bool.or_eq_true, not_or] at h
    rw [dget_cons, if_neg (by simpa using h.1), ih h.2]

theorem dget_map_update {K V : Type} [DecidableEq K] (m : List (K × V))
    (k k' : K) (v : V) :
    dget (m.map (fun p => if p.1 = k then (k, v) else p)) k' =
      if k' = k then (if m.any (fun p => p.1 = k) then some v else none)
      else dget m k' := by
  induction m with
  | nil => simp [dget]
  | cons a m ih =>
    have hne : ∀ {x y : K}, ¬ x = y → ¬ y = x := fun h h' => h h'.symm
    by_cases ha : a.1 = k
    · by_cases hk : k' = k
      · subst hk
        simp [List.map_cons, dget_cons, ha, ih]
      · simp [List.map_cons, dget_cons, ha, hk, hne hk, ih]
    · by_cases hk : k' = k
      · subst hk
        by_cases ha' : a.1 = k'
        · exact absurd ha' ha
        · simp only [List.map_cons, dget_cons, List.any_cons, if_neg ha,
            if_neg ha', ih, if_pos rfl, decide_eq_false ha, Bool.false_or]
      · by_cases ha' : a.1 = k' <;>
          · simp [List.map_cons, dget_cons, ha, ha', hk, ih]
            try rw [decide_eq_false ha]
            try simp

theorem dget_dset {K V : Type} [DecidableEq K] (m : List (K × V)) (k k' : K)
    (v : V) : dget (dset m k v) k' = if k' = k then some v else dget m k' := by
  unfold dset
  by_cases hm : m.any (fun p => p.1 = k)
  · simp [hm, dget_map_update]
  · rw [if_neg hm]
    by_cases hk : k' = k
    · subst hk
      rw [if_pos rfl, dget_append, dget_eq_none_of_not_any hm]
      simp [dget_cons]
    · rw [if_neg hk, dget_append, dget_cons, dget_nil,
        if_neg (fun h => hk h.symm)]
      cases dget m k' <;> simp

theorem dget_isSome_of_any {K V : Type} [DecidableEq K] {m : List (K × V)}
    {k : K} (h : m.any (fun p => p.1 = k)) : (dget m k).isSome := by
  induction m with
  | nil => simp at h
  | cons a m ih =>
    rw [dget_cons]
    by_cases ha : a.1 = k
    · simp [ha]
    · simp only [List.any_cons, Bool.or_eq_true, decide_eq_true_eq] at h
      rcases h with h | h
    
      · exact absurd h ha
      · simpa [ha] using ih h

theorem dget_map_bump {K V : Type} [DecidableEq K] (m : List (K × List V))
    (k k' : K) (v : V) :
    dget (m.map (fun p => if p.1 = k then (k, p.2 ++ [v]) else p)) k' =
      if k' = k then (dget m k).map (fun ks => ks ++ [v]) else dget m k' := by
  induction m with
  | nil => simp [dget]
  | cons a m ih =>
    by_cases ha : a.1 = k
    · by_cases hk : k' = k
      · subst hk
        simp [List.map_cons, dget_cons, ha, ih]
      · have hk1 : ¬ (k = k') := fun h => hk h.symm
        have hk2 : ¬ (a.1 = k') := fun h => hk (ha ▸ h : k = k').symm
        simp only [List.map_cons, if_pos ha, dget_cons, if_neg hk1,
          if_neg hk2, ih, if_neg hk]
    · by_cases hk : k' = k
      · subst hk
        by_cases ha' : a.1 = k'
        · exact absurd ha' ha
        · simp only [List.map_cons, dget_cons, if_neg ha, if_neg ha', ih,
            if_pos rfl]
      · by_cases ha' : a.1 = k' <;>
          simp [List.map_cons, dget_cons, ha, ha', hk, ih]

theorem dget_dappend {K V : Type} [DecidableEq K] (m : List (K × List V))
    (k k' : K) (v : V) :
    dget (dappend m k v) k' =
      if k' = k then some ((dget m k).getD [] ++ [v]) else dget m k' := by
  unfold dappend
  by_cases hm : m.any (fun p => p.1 = k)
  · rw [if_pos hm, dget_map_bump]
    by_cases hk : k' = k
    · obtain ⟨ks, hks⟩ := Option.isSome_iff_exists.mp (dget_isSome_of_any hm)
      simp [hk, hks]
    · simp [hk]
  · rw [if_neg hm]
    by_cases hk : k' = k
    · subst hk
      rw [if_pos rfl, dget_append, dget_eq_none_of_not_any hm]
      simp [dget_cons]
    · rw [if_neg hk, dget_append, dget_cons, dget_nil,
        if_neg (fun h => hk h.symm)]
      cases dget m k' <;> simp

theorem getLast?_cons_or {α : Type} (e : α) (xs : List α) :
    (e :: xs).getLast? = xs.getLast?.or (some e) := by
  induction xs with
  | nil => rfl
  | cons z xs ih =>
    rw [List.getLast?_cons_cons]
    cases h : (z :: xs).getLast?
    · exact absurd h (by simp)
    · simp

theorem pairwise_mem_eq {α : Type} {R : α → α → Prop} {l : List α}
    (h : l.Pairwise R) {x y : α} (hx : x ∈ l) (hy : y ∈ l) :
    x = y ∨ R x y ∨ R y x := by
  induction l with
  | nil => cases hx
  | cons a l ih =>
    have ha := (List.pairwise_cons.mp h).1
    have hl := (List.pairwise_cons.mp h).2
    rcases List.mem_cons.mp hx with hx1 | hx2
    · rcases List.mem_cons.mp hy with hy1 | hy2
      · exact Or.inl (hx1.trans hy1.symm)
      · subst hx1
        exact Or.inr (Or.inl (ha y hy2))
    · rcases List.mem_cons.mp hy with hy1 | hy2
      · subst hy1
        exact Or.inr (Or.inr (ha x hx2))
      · exact ih hl hx2 hy2

theorem dget_editsMap_go (t : String) :
    ∀ (l : List Event) acc,
      dget (l.foldl splitStep acc).2 (some t) =
        ((editsTo l t).getLast?).or (dget acc.2 (some t))
  | [], acc => by simp [editsTo]
  | e :: l, acc => by
    rw [List.foldl_cons, dget_editsMap_go t l (splitStep acc e)]
    unfold editsTo at *
    by_cases hm : e.type = "m.room.message"
    · by_cases he : isEdit e
      · by_cases ht : editTarget e = some t
        · have hpred : isEditTo t e = true := by
            simp [isEditTo, hm, he, ht]
          rw [List.filter_cons_of_pos hpred, getLast?_cons_or,
            Option.or_assoc]
          congr 1
          have hstep : (splitStep acc e).2 = dset acc.2 (editTarget e) e := by
            simp [splitStep, hm, he]
          rw [hstep, dget_dset, if_pos ht.symm]
          simp
        · have hpred : ¬ isEditTo t e = true := by
            simp [isEditTo, hm, he, ht]
          rw [List.filter_cons_of_neg hpred]
          congr 1
          have hstep : (splitStep acc e).2 = dset acc.2 (editTarget e) e := by
            simp [splitStep, hm, he]
          rw [hstep, dget_dset, if_neg (fun h => ht h.symm)]
      · have hpred : ¬ isEditTo t e = true := by
          simp [isEditTo, hm, he]
        rw [List.filter_cons_of_neg hpred]
        congr 1
        simp [splitStep, hm, he]
    · have hpred : ¬ isEditTo t e = true := by
        simp [isEditTo, hm]
      rw [List.filter_cons_of_neg hpred]
      congr 1
      simp [splitStep, hm]

/-- The edits dict looks up the last edit (in arrival order) that targets
`t`: later writes to the same key overwrite earlier ones. -/
theorem dget_editsMap (l : List Event) (t : String) :
    dget (editsMap l) (some t) = (editsTo l t).getLast? := by
  simpa [editsMap, dget_nil] using dget_editsMap_go t l ([], [])

theorem originalsMap_go :
    ∀ (l : List Event) acc,
      (∀ e, e ∈ originalsOf l → ¬ acc.1.any (fun p => p.1 = e.event_id)) →
      OrigNodup l →
      (l.foldl splitStep acc).1 =
        acc.1 ++ (originalsOf l).map (fun e => (e.event_id, e))
  | [], acc, _, _ => by simp [originalsOf]
  | e :: l, acc, hacc, hnd => by
    rw [List.foldl_cons]
    by_cases hm : e.type = "m.room.message"
    · by_cases he : isEdit e
      · have hfil : originalsOf (e :: l) = originalsOf l := by
          simp [originalsOf, List.filter_cons, isOriginal, hm, he]
        have hstep : (splitStep acc e).1 = acc.1 := by
          simp [splitStep, hm, he]
        rw [originalsMap_go l (splitStep acc e)
            (by rw [hstep]; intro f hf; exact hacc f (by rw [hfil]; exact hf))
            (by rw [OrigNodup, hfil] at hnd; exact hnd),
          hstep, hfil]
      · have horig : isOriginal e = true := by simp [isOriginal, hm, he]
        have hfil : originalsOf (e :: l) = e :: originalsOf l := by
          simp [originalsOf, List.filter_cons, horig]
        have hmem : e ∈ originalsOf (e :: l) := by rw [hfil]; exact List.mem_cons_self _ _
        have hkey : ¬ acc.1.any (fun p => p.1 = e.event_id) := hacc e hmem
        have hstep : (splitStep acc e).1 = acc.1 ++ [(e.event_id, e)] := by
          simp [splitStep, hm, he, dset, hkey]
        have hnd' : OrigNodup l := by
          rw [OrigNodup, hfil] at hnd
          exact (List.pairwise_cons.mp hnd).2
        have hhead : ∀ f ∈ originalsOf l, e.event_id ≠ f.event_id := by
          rw [OrigNodup, hfil] at hnd
          exact (List.pairwise_cons.mp hnd).1
        rw [originalsMap_go l (splitStep acc e)
            (by
              intro f hf
              rw [hstep]
              simp only [List.any_append, Bool.or_eq_true, not_or]
              refine ⟨hacc f (by rw [hfil]; exact List.mem_cons_of_mem _ hf), ?_⟩
              simp [hhead f hf]) hnd',
          hstep, hfil]
        simp
    · have hfil : originalsOf (e :: l) = originalsOf l := by
        simp [originalsOf, List.filter_cons, isOriginal, hm]
      have hstep : splitStep acc e = acc := by
        simp [splitStep, hm]
      rw [hstep, originalsMap_go l acc
          (fun f hf => hacc f (by rw [hfil]; exact hf))
          (by rw [OrigNodup, hfil] at hnd; exact hnd), hfil]

/-- Under the batch invariant, the originals dict is exactly the original
message events in arrival order, keyed by their ids. -/
theorem originalsMap_eq (l : List Event) (h : OrigNodup l) :
    originalsMap l = (originalsOf l).map (fun e => (e.event_id, e)) := by
  simpa [originalsMap] using
    originalsMap_go l ([], []) (by intro e _; simp) h

/-- Under the batch invariant, the resolved event list is the original
message events in arrival order, each fused with its last-arrived edit. -/
theorem eventsOf_eq (l : List Event) (h : OrigNodup l) :
    eventsOf l = (originalsOf l).map (resolveOne l) := by
  rw [eventsOf, originalsMap_eq l h, List.map_map]
  refine List.map_congr_left (fun e _ => ?_)
  simp only [Function.comp_apply, dget_editsMap, resolveOne]

theorem dset_mem {K V : Type} [DecidableEq K] {m : List (K × V)} {k : K}
    {v : V} {p : K × V} (h : p ∈ dset m k v) : p = (k, v) ∨ p ∈ m := by
  unfold dset at h
  by_cases hm : m.any (fun q => q.1 = k)
  · rw [if_pos hm] at h
    obtain ⟨q, hq, hfq⟩ := List.mem_map.mp h
    by_cases hqk : q.1 = k
    · rw [if_pos hqk] at hfq
      exact Or.inl hfq.symm
    · rw [if_neg hqk] at hfq
      exact Or.inr (hfq ▸ hq)
  · rw [if_neg hm] at h
    rcases List.mem_append.mp h with h | h
    · exact Or.inr h
    · exact Or.inl (List.mem_singleton.mp h)

theorem dset_key_invariant {K V : Type} [DecidableEq K]
    {Q : K × V → Prop} {m : List (K × V)} {k : K} {v : V}
    (hm : ∀ p ∈ m, Q p) (hv : Q (k, v)) : ∀ p ∈ dset m k v, Q p := by
  intro p hp
  rcases dset_mem hp with rfl | hp
  · exact hv
  · exact hm p hp

theorem dset_fst_eq {K V : Type} [DecidableEq K] (m : List (K × V)) (k : K)
    (v : V) : (dset m k v).map Prod.fst =
      if m.any (fun p => p.1 = k) then m.map Prod.fst
      else m.map Prod.fst ++ [k] := by
  unfold dset
  by_cases hm : m.any (fun p => p.1 = k)
  · rw [if_pos hm, if_pos hm, List.map_map]
    refine List.map_congr_left (fun p _ => ?_)
    by_cases hp : p.1 = k <;> simp [hp]
  · rw [if_neg hm, if_neg hm]
    simp

theorem origMap_invariant :
    ∀ (l : List Event) acc,
      (∀ p ∈ acc.1, (p : String × Event).1 = p.2.event_id) →
      ∀ p ∈ (l.foldl splitStep acc).1, p.1 = p.2.event_id
  | [], _, hacc => hacc
  | e :: l, acc, hacc => by
    rw [List.foldl_cons]
    refine origMap_invariant l (splitStep acc e) ?_
    unfold splitStep
    by_cases hm : e.type ≠ "m.room.message"
    · rw [if_pos hm]; exact hacc
    · rw [if_neg hm]
      by_cases he : isEdit e
      · rw [if_pos he]; exact hacc
      · rw [if_neg he]
        exact dset_key_invariant hacc rfl

/-- Every entry of the originals dict is keyed by its value's event id. -/
theorem originalsMap_key (l : List Event) :
    ∀ p ∈ originalsMap l, p.1 = p.2.event_id :=
  origMap_invariant l ([], []) (by intro p hp; cases hp)

theorem origMap_keys_nodup :
    ∀ (l : List Event) acc,
      acc.1.Pairwise (fun a b => a.1 ≠ b.1) →
      (l.foldl splitStep acc).1.Pairwise
        (fun (a b : String × Event) => a.1 ≠ b.1)
  | [], _, hacc => hacc
  | e :: l, acc, hacc => by
    rw [List.foldl_cons]
    refine origMap_keys_nodup l (splitStep acc e) ?_
    unfold splitStep
    by_cases hm : e.type ≠ "m.room.message"
    · rw [if_pos hm]; exact hacc
    · rw [if_neg hm]
      by_cases he : isEdit e
      · rw [if_pos he]; exact hacc
      · rw [if_neg he]
        show (dset acc.1 e.event_id e).Pairwise _
        unfold dset
        by_cases hk : acc.1.any (fun p => p.1 = e.event_id)
        · rw [if_pos hk]
          refine (List.pairwise_map.mpr ?_)
          have hfst : ∀ (x : String × Event),
              (if x.1 = e.event_id then (e.event_id, e) else x).1 = x.1 := by
            intro x
            by_cases h : x.1 = e.event_id <;> simp [h]
          refine List.Pairwise.imp ?_ hacc
          intro a b hab
          rw [hfst a, hfst b]
          exact hab
        · rw [if_neg hk]
          rw [List.pairwise_append]
          refine ⟨hacc, List.pairwise_singleton _ _, ?_⟩
          intro a ha b hb
          rw [List.mem_singleton.mp hb]
          simp only [List.any_eq_true, not_exists, not_and] at hk
          intro hcon
          have := hk a ha
          simp [hcon] at this

/-- The keys of the originals dict are pairwise distinct. -/
theorem originalsMap_keys_nodup (l : List Event) :
    (originalsMap l).Pairwise (fun a b => a.1 ≠ b.1) :=
  origMap_keys_nodup l ([], []) List.Pairwise.nil

theorem eventsOf_id_eq (l : List Event) :
    (eventsOf l).map (fun r => r.ev.event_id) =
      (originalsMap l).map Prod.fst := by
  unfold eventsOf
  rw [List.map_map]
  refine List.map_congr_left (fun p hp => ?_)
  have hkey := originalsMap_key l p hp
  cases h : dget (editsMap l) (some p.1) with
  | none =>
    simp only [Function.comp_apply, h]
    exact hkey.symm
  | some rep =>
    simp only [Function.comp_apply, h]
    exact hkey.symm

/-- The ids of the resolved events are pairwise distinct (they are the keys
of the originals dict), with no hypothesis on the input. -/
theorem eventsOf_ids_nodup (l : List Event) :
    (eventsOf l).Pairwise (fun a b => a.ev.event_id ≠ b.ev.event_id) := by
  have h := originalsMap_keys_nodup l
  have hmap : List.Pairwise (fun (a b : String) => a ≠ b)
      ((eventsOf l).map (fun r => r.ev.event_id)) := by
    rw [eventsOf_id_eq]
    exact List.pairwise_map.mpr h
  exact List.pairwise_map.mp hmap

theorem mem_flatMap_dappend {x v k : String}
    {m : List (String × List String)} :
    x ∈ (dappend m k v).flatMap Prod.snd ↔
      x ∈ m.flatMap Prod.snd ∨ x = v := by
  unfold dappend
  by_cases hm : m.any (fun p => p.1 = k)
  · rw [if_pos hm]
    simp only [List.mem_flatMap, List.mem_map]
    constructor
    · rintro ⟨p, ⟨q, hq, rfl⟩, hx⟩
      by_cases hqk : q.1 = k
      · rw [if_pos hqk] at hx
        rcases List.mem_append.mp hx with hx | hx
        · exact Or.inl ⟨q, hq, hx⟩
        · exact Or.inr (List.mem_singleton.mp hx)
      · rw [if_neg hqk] at hx
        exact Or.inl ⟨q, hq, hx⟩
    · rintro (⟨p, hp, hx⟩ | rfl)
      · refine ⟨if p.1 = k then (k, p.2 ++ [v]) else p, ⟨p, hp, rfl⟩, ?_⟩
        by_cases hpk : p.1 = k
        · rw [if_pos hpk]
          exact List.mem_append.mpr (Or.inl hx)
        · rw [if_neg hpk]
          exact hx
      · simp only [List.any_eq_true, decide_eq_true_eq] at hm
        obtain ⟨p, hp, hpk⟩ := hm
        refine ⟨(k, p.2 ++ [x]), ⟨p, hp, by rw [if_pos hpk]⟩, ?_⟩
        simp
  · rw [if_neg hm]
    simp

theorem mem_childIds_go (x : String) :
    ∀ (es : List Resolved) m,
      (x ∈ (es.foldl threadStep m).flatMap Prod.snd ↔
        x ∈ m.flatMap Prod.snd ∨
          ∃ r ∈ es, (relOf r.ev).rel_type = some "m.thread" ∧
            r.ev.event_id = x)
  | [], m => by simp
  | r :: es, m => by
    rw [List.foldl_cons, mem_childIds_go x es (threadStep m r)]
    unfold threadStep
    by_cases ht : (relOf r.ev).rel_type = some "m.thread"
    · rw [if_pos (by simp [ht])]
      rw [mem_flatMap_dappend]
      constructor
      · rintro ((h | rfl) | h)
        · exact Or.inl h
        · exact Or.inr ⟨r, List.mem_cons_self _ _, ht, rfl⟩
        · obtain ⟨s, hs, h1, h2⟩ := h
          exact Or.inr ⟨s, List.mem_cons_of_mem _ hs, h1, h2⟩
      · rintro (h | ⟨s, hs, h1, h2⟩)
        · exact Or.inl (Or.inl h)
        · rcases List.mem_cons.mp hs with rfl | hs
          · exact Or.inl (Or.inr h2.symm)
          · exact Or.inr ⟨s, hs, h1, h2⟩
    · rw [if_neg (by simp [ht])]
      constructor
      · rintro (h | ⟨s, hs, h1, h2⟩)
        · exact Or.inl h
        · exact Or.inr ⟨s, List.mem_cons_of_mem _ hs, h1, h2⟩
      · rintro (h | ⟨s, hs, h1, h2⟩)
        · exact Or.inl h
        · rcases List.mem_cons.mp hs with rfl | hs
          · exact absurd h1 ht
          · exact Or.inr ⟨s, hs, h1, h2⟩

/-- Membership in the reply-id set: exactly the ids of the resolved
messages carrying a thread relation. -/
theorem mem_childIds (es : List Resolved) (x : String) :
    x ∈ childIds es ↔
      ∃ r ∈ es, (relOf r.ev).rel_type = some "m.thread" ∧
        r.ev.event_id = x := by
  have := mem_childIds_go x es []
  simpa [childIds, threadsMap] using this

theorem kidsOf_go (t : String) :
    ∀ (es : List Resolved) m,
      (dget (es.foldl threadStep m) t).getD [] =
        (dget m t).getD [] ++ kidsFilter es t
  | [], m => by simp [kidsFilter]
  | r :: es, m => by
    rw [List.foldl_cons, kidsOf_go t es (threadStep m r)]
    unfold threadStep kidsFilter
    by_cases ht : (relOf r.ev).rel_type = some "m.thread"
    · rw [if_pos (by simp [ht])]
      by_cases hk : (relOf r.ev).event_id.getD "" = t
      · rw [List.filter_cons_of_pos (by simp [ht, hk]), dget_dappend,
          if_pos hk.symm, hk]
        simp
      · rw [List.filter_cons_of_neg (by simp [ht, hk]), dget_dappend,
          if_neg (fun h => hk h.symm)]
    · rw [if_neg (by simp [ht]),
        List.filter_cons_of_neg (by simp [ht])]

/-- The reply ids of one root are exactly the ids of the resolved messages
whose thread relation targets it, in arrival order. -/
theorem kidsOf_eq (es : List Resolved) (t : String) :
    kidsOf es t = kidsFilter es t := by
  have := kidsOf_go t es []
  simpa [kidsOf, threadsMap] using this

theorem filter_orderedInsert {α : Type} (r : α → α → Prop) [DecidableRel r]
    (p : α → Bool) (hp : ∀ x y, p x → p y → r x y) (a : α) (m : List α) :
    (List.orderedInsert r a m).filter p =
      if p a then a :: m.filter p else m.filter p := by
  induction m with
  | nil => cases hpa : p a <;> simp [List.orderedInsert, hpa]
  | cons b m ih =>
    rw [List.orderedInsert]
    by_cases hab : r a b
    · rw [if_pos hab]
      cases hpa : p a <;> simp [List.filter_cons, hpa]
    · rw [if_neg hab]
      cases hpb : p b
      · cases hpa : p a <;> simp [List.filter_cons, hpb, hpa, ih]
      · have hpa : p a = false := by
          cases hpa' : p a
          · rfl
          · exact absurd (hp a b hpa' hpb) hab
        simp [List.filter_cons, hpb, hpa, ih]

/-- Stability of the sort: elements selected by a predicate that is
pairwise tied under the order keep their relative arrival order. -/
theorem filter_insertionSort {α : Type} (r : α → α → Prop) [DecidableRel r]
    (p : α → Bool) (hp : ∀ x y, p x → p y → r x y) (l : List α) :
    (List.insertionSort r l).filter p = l.filter p := by
  induction l with
  | nil => rfl
  | cons a l ih =>
    rw [List.insertionSort, filter_orderedInsert r p hp, ih, List.filter_cons]

theorem orderedInsert_congr {α : Type} (r s : α → α → Prop) [DecidableRel r]
    [DecidableRel s] (a : α) (m : List α)
    (h : ∀ x ∈ m, (r a x ↔ s a x)) :
    List.orderedInsert r a m = List.orderedInsert s a m := by
  induction m with
  | nil => rfl
  | cons b m ih =>
    rw [List.orderedInsert, List.orderedInsert]
    by_cases hab : r a b
    · rw [if_pos hab, if_pos ((h b (List.mem_cons_self _ _)).mp hab)]
    · rw [if_neg hab,
        if_neg (fun hs => hab ((h b (List.mem_cons_self _ _)).mpr hs)),
        ih (fun x hx => h x (List.mem_cons_of_mem _ hx))]

theorem insertionSort_congr {α : Type} (r s : α → α → Prop) [DecidableRel r]
    [DecidableRel s] (l : List α)
    (h : ∀ x y, x ∈ l → y ∈ l → (r x y ↔ s x y)) :
    List.insertionSort r l = List.insertionSort s l := by
  induction l with
  | nil => rfl
  | cons a l ih =>
    rw [List.insertionSort, List.insertionSort,
      ih (fun x y hx hy =>
        h x y (List.mem_cons_of_mem _ hx) (List.mem_cons_of_mem _ hy))]
    refine orderedInsert_congr r s a _ (fun x hx => ?_)
    have hx' : x ∈ l := (List.perm_insertionSort s l).mem_iff.mp hx
    exact h a x (List.mem_cons_self _ _) (List.mem_cons_of_mem _ hx')

/-- Two sorted lists over pairwise-distinct keys that are permutations of
one another are equal. -/
theorem perm_sorted_key_unique {α : Type} (key : α → Nat) {l₁ l₂ : List α}
    (hperm : List.Perm l₁ l₂)
    (h₁ : l₁.Pairwise (fun a b => key a < key b))
    (h₂ : l₂.Pairwise (fun a b => key a < key b)) : l₁ = l₂ := by
  haveI : IsAntisymm α (fun a b => key a < key b) :=
    ⟨fun a b hab hba => absurd (Nat.lt_trans hab hba) (Nat.lt_irrefl _)⟩
  exact List.eq_of_perm_of_sorted hperm h₁ h₂

theorem pairwise_lt_of_le_of_ne {α : Type} (key : α → Nat) {l : List α}
    (hs : l.Pairwise (fun a b => key a ≤ key b))
    (hd : l.Pairwise (fun a b => key a ≠ key b)) :
    l.Pairwise (fun a b => key a < key b) :=
  (hs.and hd).imp (fun h => Nat.lt_of_le_of_ne h.1 h.2)

theorem byId_eq_some {es : List Resolved} {c : String} {r : Resolved}
    (h : byId es c = some r) : r ∈ es ∧ r.ev.event_id = c :=
  ⟨List.mem_of_find?_eq_some h, by simpa using List.find?_some h⟩

theorem byId_of_mem {es : List Resolved} {x : Resolved}
    (hnd : es.Pairwise (fun a b => a.ev.event_id ≠ b.ev.event_id))
    (hx : x ∈ es) : byId es x.ev.event_id = some x := by
  induction es with
  | nil => cases hx
  | cons a es ih =>
    have ha := (List.pairwise_cons.mp hnd).1
    have hes := (List.pairwise_cons.mp hnd).2
    rcases List.mem_cons.mp hx with rfl | hx
    · simp [byId, List.find?_cons]
    · have hne : ¬ (a.ev.event_id == x.ev.event_id) = true := by
        simpa using ha x hx
      unfold byId at ih ⊢
      rw [List.find?_cons_of_neg _ (by simpa using hne)]
      exact ih hes hx

theorem runRooms_go (outcome : String → Except String (String × String × String)) :
    ∀ (rooms : List String) acc,
      rooms.foldl (fun acc rid =>
        match outcome rid with
        | .ok m => acc ++ [m]
        | .error _ => acc) acc =
      acc ++ rooms.filterMap (fun r => (outcome r).toOption)
  | [], acc => by simp
  | r :: rooms, acc => by
    rw [List.foldl_cons, runRooms_go outcome rooms]
    cases h : outcome r <;> simp [h, Except.toOption]

/-- C7 counterexample: the claimed scenario output contains an emphasis
element, but `format_body` (which has no emphasis rule at all) renders the
body with the asterisks verbatim, so the claim is false on the code. -/
theorem c7_counterexample :
    format_body "`code` and *text*" = "<code>code</code> and *text*" ∧
    format_body "`code` and *text*" ≠ "<code>code</code> and <em>text</em>" := by
  constructor
  · decide
  · decide

/-- C7 (amended): the formatter supports fenced code, inline code and
links only; asterisk-delimited tokens are not transformed, so the scenario
body renders as `<code>code</code> and *text*` with the asterisks kept
verbatim (no emphasis element is emitted). -/
theorem claim_c7 :
    format_body "`code` and *text*" = "<code>code</code> and *text*" ∧
    format_body "*text*" = "*text*" ∧
    format_body " and *text*" = " and *text*" := by
  refine ⟨by decide, by decide, by decide⟩

/-- C2 counterexample: two roots share a timestamp; the input arrives with
the lexically larger id `$b` first, and the rendered order keeps `$b`
first, so ties are not broken by lexical event-id order. -/
theorem c2_counterexample :
    (rootsOf [exTieB, exTieA]).map (fun r => r.ev.event_id) = ["$b", "$a"] ∧
    exTieB.origin_server_ts = exTieA.origin_server_ts ∧
    ("$a".data < "$b".data) ∧
    (renderSeq [exTieB, exTieA]).map (fun p => p.1.ev.event_id) =
      ["$b", "$a"] := by
  refine ⟨by decide, rfl, by decide, by decide⟩

/-- C2 (amended): roots are rendered in ascending timestamp order and each
root's replies in ascending timestamp order, but equal-timestamp ties keep
their arrival order (Python's `sorted` is stable); they are not reordered
by event id. -/
theorem claim_c2 (l : List Event) :
    (rootsOf l).Pairwise tsLe ∧
    (∀ t, (rootsOf l).filter (fun r => r.ev.origin_server_ts == t) =
      ((eventsOf l).filter
        (fun r => ¬ (childIds (eventsOf l)).contains r.ev.event_id)).filter
        (fun r => r.ev.origin_server_ts == t)) ∧
    (∀ rootId,
      (List.insertionSort (kidLe (eventsOf l))
        (kidsOf (eventsOf l) rootId)).Pairwise (kidLe (eventsOf l)) ∧
      ∀ t, (List.insertionSort (kidLe (eventsOf l))
          (kidsOf (eventsOf l) rootId)).filter
          (fun c => kidTs (eventsOf l) c == t) =
        (kidsOf (eventsOf l) rootId).filter
          (fun c => kidTs (eventsOf l) c == t)) := by
  refine ⟨List.sorted_insertionSort tsLe _, fun t => ?_, fun rootId =>
    ⟨List.sorted_insertionSort (kidLe (eventsOf l)) _, fun t => ?_⟩⟩
  · refine filter_insertionSort tsLe _ ?_ _
    intro x y hx hy
    have hx' : x.ev.origin_server_ts = t := by simpa using hx
    have hy' : y.ev.origin_server_ts = t := by simpa using hy
    exact le_of_eq (hx'.trans hy'.symm)
  · refine filter_insertionSort (kidLe (eventsOf l)) _ ?_ _
    intro x y hx hy
    have hx' : kidTs (eventsOf l) x = t := by simpa using hx
    have hy' : kidTs (eventsOf l) y = t := by simpa using hy
    exact le_of_eq (hx'.trans hy'.symm)

/-- C6 counterexample: the empty-input run and a successful non-empty run
return the same `(room, title, slug)` tuple, so the result value is not
distinguishable; only the absence of files differs. -/
theorem c6_counterexample :
    (archiveRoom (fun _ => "") "!r:h" "T" 5 []).meta =
      (archiveRoom (fun _ => "") "!r:h" "T" 5 [exHello]).meta ∧
    (archiveRoom (fun _ => "") "!r:h" "T" 5 []).files = none ∧
    (archiveRoom (fun _ => "") "!r:h" "T" 5 [exHello]).files.isSome := by
  refine ⟨by decide, rfl, by decide⟩

/-- C6 (amended): when the resolved event set is empty the pipeline writes
no files, but it returns the same `(room, title, slug(room))` tuple as any
successful run of the same room, so the return value alone does not
distinguish the empty outcome. -/
theorem claim_c6 (color : String → String) (room title : String)
    (now : Nat) (l : List Event) (h : (eventsOf l).isEmpty) :
    (archiveRoom color room title now l).files = none ∧
    (archiveRoom color room title now l).meta = (room, title, slugOf room) ∧
    ∀ (now' : Nat) (l' : List Event),
      (archiveRoom color room title now l).meta =
        (archiveRoom color room title now' l').meta := by
  refine ⟨?_, ?_, ?_⟩
  · unfold archiveRoom
    rw [if_pos h]
  · unfold archiveRoom
    rw [if_pos h]
  · intro now' l'
    unfold archiveRoom
    rw [if_pos h]
    by_cases h' : (eventsOf l').isEmpty
    · rw [if_pos h']
    · rw [if_neg h']

/-- C6 witness. -/
theorem c6_witness :
    (archiveRoom (fun _ => "#fff") "!w:h" "W" 7 [exEdit]).files = none ∧
    (archiveRoom (fun _ => "#fff") "!w:h" "W" 7 [exEdit]).meta =
      ("!w:h", "W", slugOf "!w:h") ∧
    ∀ (now' : Nat) (l' : List Event),
      (archiveRoom (fun _ => "#fff") "!w:h" "W" 7 [exEdit]).meta =
        (archiveRoom (fun _ => "#fff") "!w:h" "W" now' l').meta :=
  claim_c6 (fun _ => "#fff") "!w:h" "W" 7 [exEdit] (by decide)

theorem fmtYmdHM_minutes (ms : Nat) :
    fmtYmdHM (60000 * (ms / 60000)) = fmtYmdHM ms := by
  unfold fmtYmdHM
  dsimp only
  have h1 : 60000 * (ms / 60000) / 1000 / 86400 = ms / 1000 / 86400 := by
    omega
  have h2 : 60000 * (ms / 60000) / 1000 % 86400 / 3600 =
      ms / 1000 % 86400 / 3600 := by omega
  have h3 : 60000 * (ms / 60000) / 1000 % 86400 % 3600 / 60 =
      ms / 1000 % 86400 % 3600 / 60 := by omega
  rw [h1, h2, h3]

/-- C9 counterexample: two export times thirty seconds apart produce the
same stamp (the format has only minute precision), and the stamp fails the
ISO-8601 second-precision UTC shape described by the spec (it uses a space
separator, no seconds field and a trailing " UTC"). -/
theorem c9_counterexample :
    fmtStamp 1700000000000 = fmtStamp 1700000030000 ∧
    (1700000000000 : Nat) / 1000 % 60 ≠ 1700000030000 / 1000 % 60 ∧
    isIso8601UtcSec (fmtStamp 1700000000000) = false ∧
    fmtStamp 1700000000000 = "2023-11-14 22:13 UTC" := by
  refine ⟨by decide, by decide, by decide, by decide⟩

/-- C9 (amended): the transcript begins with two `#` comment lines (room
title, export timestamp), but the timestamp is formatted
`YYYY-MM-DD HH:MM UTC`: minute precision with a space separator and a
literal ` UTC` suffix, not an ISO-8601 second-precision form.  The last
conjunct states minute precision: the stamp only depends on the export
time truncated to whole minutes. -/
theorem claim_c9 (title : String) (now : Nat) (l : List Event) :
    (txtLines title now l).take 2 =
      ["# room: " ++ title, "# exported: " ++ fmtStamp now] ∧
    ("# room: " ++ title).data.head? = some '#' ∧
    ("# exported: " ++ fmtStamp now).data.head? = some '#' ∧
    fmtStamp now = fmtYmdHM now ++ " UTC" ∧
    fmtStamp (60000 * (now / 60000)) = fmtStamp now := by
  refine ⟨rfl, ?_, ?_, rfl, ?_⟩
  · rw [String.data_append]
    rfl
  · rw [String.data_append]
    rfl
  · unfold fmtStamp
    rw [fmtYmdHM_minutes]

/-- C10: the driver loop absorbs per-room failures: the collected metas
are exactly the successful outcomes in order (independent of failures
elsewhere), a failing head room leaves the rest processed unchanged, and
the root index is built from all successfully archived rooms sorted by
lower-cased title. -/
theorem claim_c10
    (outcome : String → Except String (String × String × String))
    (rooms : List String) :
    runRooms outcome rooms =
      rooms.filterMap (fun r => (outcome r).toOption) ∧
    mainRun outcome rooms = indexDoc (List.insertionSort titleLe
      (rooms.filterMap (fun r => (outcome r).toOption))) ∧
    ∀ (r : String) (rs : List String) (e : String), outcome r = .error e →
      runRooms outcome (r :: rs) = runRooms outcome rs := by
  refine ⟨?_, ?_, ?_⟩
  · simpa using runRooms_go outcome rooms []
  · unfold mainRun
    rw [show runRooms outcome rooms =
      rooms.filterMap (fun r => (outcome r).toOption) from
      by simpa using runRooms_go outcome rooms []]
  · intro r rs e h
    unfold runRooms
    rw [List.foldl_cons, h]

/-- C10 witness. -/
theorem c10_witness :
    runRooms (fun r => if r = "!bad:h" then .error "boom"
        else .ok (r, r, r)) ("!bad:h" :: ["!ok:h"]) =
      runRooms (fun r => if r = "!bad:h" then .error "boom"
        else .ok (r, r, r)) ["!ok:h"] :=
  (claim_c10 _ ["!ok:h"]).2.2 "!bad:h" ["!ok:h"] "boom" (by rfl)

/-- C1 counterexample: the last edit of `exEdM` carries an `m.new_content`
body that is present but empty; the claim says the resolved body is that
new-content body (the empty string), but the code's Python `or` falls back
to the edit's top-level body "fallback". -/
theorem c1_counterexample :
    (editsTo [exEdM, exEdE] "$m").getLast? = some exEdE ∧
    exEdE.content.m_new_content = some ⟨some ""⟩ ∧
    specNewBody exEdE = "" ∧
    newBody exEdE = "fallback" ∧
    byId (eventsOf [exEdM, exEdE]) "$m" =
      some ⟨setBody exEdM "fallback", true⟩ ∧
    ("fallback" : String) ≠ "" := by
  refine ⟨by decide, rfl, rfl, rfl, by decide, by decide⟩

/-- C1 (amended): for an original message event `e` (ids unique among
originals, the batch invariant), the resolved entry under its id applies
the edit that arrived last among the edits targeting it, with replacement
body `newBody` (the new-content body when present and non-empty, else the
edit's own top-level body), and the edited flag is set iff at least one
edit targets it. -/
theorem claim_c1 (l : List Event) (e : Event) (hnd : OrigNodup l)
    (he : e ∈ originalsOf l) :
    byId (eventsOf l) e.event_id = some (resolveOne l e) ∧
    ((resolveOne l e).edited = true ↔ editsTo l e.event_id ≠ []) ∧
    (∀ rep, (editsTo l e.event_id).getLast? = some rep →
      resolveOne l e = ⟨setBody e (newBody rep), true⟩) ∧
    (editsTo l e.event_id = [] → resolveOne l e = ⟨e, false⟩) := by
  refine ⟨?_, ?_, ?_, ?_⟩
  · have hid : (resolveOne l e).ev.event_id = e.event_id := by
      unfold resolveOne
      cases (editsTo l e.event_id).getLast? <;> rfl
    have hmem : resolveOne l e ∈ eventsOf l := by
      rw [eventsOf_eq l hnd]
      exact List.mem_map_of_mem _ he
    have := byId_of_mem (eventsOf_ids_nodup l) hmem
    rwa [hid] at this
  · unfold resolveOne
    cases h : (editsTo l e.event_id).getLast? with
    | none =>
      simp only [List.getLast?_eq_none_iff] at h
      simp [h]
    | some rep =>
      have : editsTo l e.event_id ≠ [] := by
        intro hcon
        rw [hcon] at h
        cases h
      simp [this]
  · intro rep hrep
    unfold resolveOne
    rw [hrep]
  · intro h
    unfold resolveOne
    rw [h]
    rfl

/-- C1 witness. -/
theorem c1_witness :
    byId (eventsOf [exEdM, exEdE]) exEdM.event_id =
      some (resolveOne [exEdM, exEdE] exEdM) ∧
    ((resolveOne [exEdM, exEdE] exEdM).edited = true ↔
      editsTo [exEdM, exEdE] exEdM.event_id ≠ []) ∧
    (∀ rep, (editsTo [exEdM, exEdE] exEdM.event_id).getLast? = some rep →
      resolveOne [exEdM, exEdE] exEdM = ⟨setBody exEdM (newBody rep), true⟩) ∧
    (editsTo [exEdM, exEdE] exEdM.event_id = [] →
      resolveOne [exEdM, exEdE] exEdM = ⟨exEdM, false⟩) :=
  claim_c1 [exEdM, exEdE] exEdM (by unfold OrigNodup; decide) (by decide)

theorem mem_rootsOf {l : List Event} {r : Resolved} :
    r ∈ rootsOf l ↔
      r ∈ eventsOf l ∧ r.ev.event_id ∉ childIds (eventsOf l) := by
  unfold rootsOf
  rw [(List.perm_insertionSort tsLe _).mem_iff, List.mem_filter]
  simp

theorem resolved_eq_of_id_eq {es : List Resolved} {x y : Resolved}
    (hnd : es.Pairwise (fun a b => a.ev.event_id ≠ b.ev.event_id))
    (hx : x ∈ es) (hy : y ∈ es)
    (hid : x.ev.event_id = y.ev.event_id) : x = y := by
  rcases pairwise_mem_eq hnd hx hy with h | h | h
  · exact h
  · exact absurd hid h
  · exact absurd hid.symm h

theorem root_mem_renderSeq {l : List Event} {root : Resolved}
    (h : root ∈ rootsOf l) : (root, 0) ∈ renderSeq l := by
  unfold renderSeq
  exact List.mem_flatMap.mpr ⟨root, h, List.mem_cons_self _ _⟩

theorem renderSeq_mem_cases {l : List Event} {x : Resolved} {lvl : Nat}
    (h : (x, lvl) ∈ renderSeq l) :
    (lvl = 0 ∧ x ∈ rootsOf l) ∨
    (lvl = 1 ∧ ∃ root ∈ rootsOf l,
      ∃ c ∈ kidsOf (eventsOf l) root.ev.event_id,
        byId (eventsOf l) c = some x) := by
  unfold renderSeq at h
  obtain ⟨root, hroot, hmem⟩ := List.mem_flatMap.mp h
  rcases List.mem_cons.mp hmem with heq | hmem
  · obtain ⟨h1, h2⟩ := Prod.mk.injEq .. ▸ heq
    exact Or.inl ⟨h2, h1 ▸ hroot⟩
  · obtain ⟨y, hy, heq⟩ := List.mem_map.mp hmem
    obtain ⟨c, hc, hbyid⟩ := List.mem_filterMap.mp hy
    have hc' : c ∈ kidsOf (eventsOf l) root.ev.event_id :=
      (List.perm_insertionSort (kidLe (eventsOf l)) _).mem_iff.mp hc
    have h1 : y = x := congrArg Prod.fst heq
    have h2 : lvl = 1 := (congrArg Prod.snd heq).symm
    exact Or.inr ⟨h2, root, hroot, c, hc', h1 ▸ hbyid⟩

/-- C4 counterexample: a message whose thread relation targets itself is
classified as its own reply, so it is neither a root nor rendered at all,
while the claim says it must be a top-level root. -/
theorem c4_counterexample :
    (relOf exSelf).rel_type = some "m.thread" ∧
    (relOf exSelf).event_id = some exSelf.event_id ∧
    (eventsOf [exSelf]).length = 1 ∧
    rootsOf [exSelf] = [] ∧
    renderSeq [exSelf] = [] := by
  refine ⟨rfl, rfl, rfl, by decide, by decide⟩

/-- C4 (amended): a resolved message whose relation is missing or whose
relation kind is not `m.thread` is a root and is rendered at top level;
but a message whose thread relation targets its own event id is classified
as its own reply: it is not a root and never appears in the rendering at
any level. -/
theorem claim_c4 (l : List Event) (r : Resolved) (hr : r ∈ eventsOf l) :
    ((relOf r.ev).rel_type ≠ some "m.thread" →
      r ∈ rootsOf l ∧ (r, 0) ∈ renderSeq l) ∧
    ((relOf r.ev).rel_type = some "m.thread" →
      (relOf r.ev).event_id = some r.ev.event_id →
      r ∉ rootsOf l ∧ ∀ lvl, (r, lvl) ∉ renderSeq l) := by
  have hnd := eventsOf_ids_nodup l
  constructor
  · intro hnt
    have hchild : r.ev.event_id ∉ childIds (eventsOf l) := by
      intro hmem
      obtain ⟨f, hf, hft, hfid⟩ := (mem_childIds _ _).mp hmem
      have : f = r := resolved_eq_of_id_eq hnd hf hr hfid
      exact hnt (this ▸ hft)
    have hroot : r ∈ rootsOf l := mem_rootsOf.mpr ⟨hr, hchild⟩
    exact ⟨hroot, root_mem_renderSeq hroot⟩
  · intro ht htgt
    have hchild : r.ev.event_id ∈ childIds (eventsOf l) :=
      (mem_childIds _ _).mpr ⟨r, hr, ht, rfl⟩
    have hnroot : r ∉ rootsOf l := by
      intro hcon
      exact (mem_rootsOf.mp hcon).2 hchild
    refine ⟨hnroot, fun lvl hcon => ?_⟩
    rcases renderSeq_mem_cases hcon with ⟨_, hmem⟩ | ⟨_, root, hroot, c, hc, hbyid⟩
    · exact hnroot hmem
    · have hid : r.ev.event_id = c := (byId_eq_some hbyid).2
      rw [kidsOf_eq] at hc
      obtain ⟨f, hf, hfid⟩ := List.mem_map.mp hc
      have hfes : f ∈ eventsOf l := (List.mem_filter.mp hf).1
      have hfpred := (List.mem_filter.mp hf).2
      have hfr : f = r :=
        resolved_eq_of_id_eq hnd hfes hr (hfid.trans hid.symm)
      have htarget : (relOf r.ev).event_id.getD "" = root.ev.event_id := by
        have := (Bool.and_eq_true _ _).mp hfpred
        have h2 := this.2
        rw [hfr] at h2
        simpa using h2
      have hrootid : root.ev.event_id = r.ev.event_id := by
        rw [htgt] at htarget
        simpa using htarget.symm
      have hrootes : root ∈ eventsOf l := (mem_rootsOf.mp hroot).1
      have : root = r := resolved_eq_of_id_eq hnd hrootes hr hrootid
      exact hnroot (this ▸ hroot)

/-- C4 witness. -/
theorem c4_witness :
    ((relOf (⟨exHello, false⟩ : Resolved).ev).rel_type ≠ some "m.thread" →
      (⟨exHello, false⟩ : Resolved) ∈ rootsOf [exHello] ∧
      ((⟨exHello, false⟩ : Resolved), 0) ∈ renderSeq [exHello]) ∧
    ((relOf (⟨exHello, false⟩ : Resolved).ev).rel_type = some "m.thread" →
      (relOf (⟨exHello, false⟩ : Resolved).ev).event_id =
        some (⟨exHello, false⟩ : Resolved).ev.event_id →
      (⟨exHello, false⟩ : Resolved) ∉ rootsOf [exHello] ∧
      ∀ lvl, ((⟨exHello, false⟩ : Resolved), lvl) ∉ renderSeq [exHello]) :=
  claim_c4 [exHello] ⟨exHello, false⟩ (by decide)

theorem tLit_srcOK (s : String) : ∀ y ∈ tLit s, srcOK y := by
  intro y hy
  obtain ⟨c, _, rfl⟩ := List.mem_map.mp hy
  intro h
  cases h

theorem escTChar_srcOK (t : TChar) : ∀ y ∈ escTChar t, srcOK y := by
  intro y hy
  unfold escTChar at hy
  split_ifs at hy with h1 h2 h3 h4 h5
  · exact tLit_srcOK _ y hy
  · exact tLit_srcOK _ y hy
  · exact tLit_srcOK _ y hy
  · exact tLit_srcOK _ y hy
  · exact tLit_srcOK _ y hy
  · rw [List.mem_singleton.mp hy]
    exact fun _ => ⟨h2, h3, h1⟩

theorem hEscapeT_srcOK (s : List TChar) : ∀ y ∈ hEscapeT s, srcOK y := by
  intro y hy
  obtain ⟨t, _, hyt⟩ := List.mem_flatMap.mp hy
  exact escTChar_srcOK t y hyt

theorem pyWord_safe {c : Char} (h : pyWord c = true) :
    c ≠ '<' ∧ c ≠ '>' ∧ c ≠ '&' := by
  refine ⟨?_, ?_, ?_⟩ <;> rintro rfl <;> revert h <;> decide

theorem tryHttp_sub {s pfx r : List TChar}
    (h : tryHttp s = some (pfx, r)) :
    (∀ x ∈ pfx, x ∈ s) ∧ (∀ x ∈ r, x ∈ s) := by
  unfold tryHttp at h
  split_ifs at h <;>
    · obtain ⟨rfl, rfl⟩ := Prod.mk.injEq .. ▸ Option.some.inj h
      exact ⟨fun x hx => List.take_subset _ _ hx,
        fun x hx => List.drop_subset _ _ hx⟩

theorem tryMdlink_sub :
    ∀ {s lab url : List TChar} {n : Nat},
      tryMdlink s = some (lab, url, n) →
      (∀ x ∈ lab, x ∈ s) ∧ (∀ x ∈ url, x ∈ s)
  | [], lab, url, n, h => by cases h
  | t :: rest, lab, url, n, h => by
    simp only [tryMdlink] at h
    by_cases h1 : t.ch = '['
    case neg => rw [if_neg h1] at h; cases h
    rw [if_pos h1] at h
    by_cases h2 : (rest.takeWhile (fun x => x.ch ≠ ']')).isEmpty
    case pos => rw [if_pos h2] at h; cases h
    rw [if_neg h2] at h
    split at h
    · rename_i a b r2 heq
      by_cases h3 : a.ch = ']' ∧ b.ch = '('
      case neg => rw [if_neg h3] at h; cases h
      rw [if_pos h3] at h
      cases hh : tryHttp r2 with
      | none => rw [hh] at h; cases h
      | some pr =>
        obtain ⟨pfx, r3⟩ := pr
        rw [hh] at h
        simp only at h
        by_cases h4 :
          (r3.takeWhile (fun x => ¬ pyWS x.ch ∧ x.ch ≠ ')')).isEmpty
        case pos => rw [if_pos h4] at h; cases h
        rw [if_neg h4] at h
        split at h
        · rename_i c tail heq2
          by_cases h5 : c.ch = ')'
          case neg => rw [if_neg h5] at h; cases h
          rw [if_pos h5] at h
          obtain ⟨rfl, rfl, rfl⟩ := Prod.mk.injEq .. ▸ Option.some.inj h
          have hr2 : ∀ x ∈ r2, x ∈ t :: rest := by
            intro x hx
            have hx2 : x ∈ rest.drop
                (rest.takeWhile (fun x => x.ch ≠ ']')).length := by
              rw [heq]
              exact List.mem_cons_of_mem _ (List.mem_cons_of_mem _ hx)
            exact List.mem_cons_of_mem _ (List.drop_subset _ _ hx2)
          refine ⟨?_, ?_⟩
          · intro x hx
            exact List.mem_cons_of_mem _
              ((List.takeWhile_sublist _).subset hx)
          · intro x hx
            rcases List.mem_append.mp hx with hx | hx
            · exact hr2 _ ((tryHttp_sub hh).1 x hx)
            · exact hr2 _ ((tryHttp_sub hh).2 x
                ((List.takeWhile_sublist _).subset hx))
        · cases h
    · cases h

theorem tryRawurl_sub {s url : List TChar} {n : Nat}
    (h : tryRawurl s = some (url, n)) : ∀ x ∈ url, x ∈ s := by
  unfold tryRawurl at h
  cases hh : tryHttp s with
  | none => rw [hh] at h; cases h
  | some pr =>
    obtain ⟨pfx, r⟩ := pr
    rw [hh] at h
    simp only at h
    by_cases h4 : (r.takeWhile (fun x => ¬ pyWS x.ch ∧ x.ch ≠ '<')).isEmpty
    · rw [if_pos h4] at h; cases h
    · rw [if_neg h4] at h
      obtain ⟨rfl, rfl⟩ := Prod.mk.injEq .. ▸ Option.some.inj h
      intro x hx
      rcases List.mem_append.mp hx with hx | hx
      · exact (tryHttp_sub hh).1 x hx
      · exact (tryHttp_sub hh).2 x ((List.takeWhile_sublist _).subset hx)

theorem tryInline_sub :
    ∀ {s content : List TChar} {n : Nat},
      tryInline s = some (content, n) → ∀ x ∈ content, x ∈ s
  | [], content, n, h => by cases h
  | t :: rest, content, n, h => by
    simp only [tryInline] at h
    by_cases h1 : t.ch.toNat = 96
    case neg => rw [if_neg h1] at h; cases h
    rw [if_pos h1] at h
    split at h
    · by_cases h2 : (rest.takeWhile (fun x => x.ch.toNat ≠ 96)).isEmpty ∨
        (rest.takeWhile (fun x => x.ch.toNat ≠ 96)).any (fun x => x.ch = '\n')
      · rw [if_pos h2] at h; cases h
      · rw [if_neg h2] at h
        obtain ⟨rfl, rfl⟩ := Prod.mk.injEq .. ▸ Option.some.inj h
        intro x hx
        exact List.mem_cons_of_mem _ ((List.takeWhile_sublist _).subset hx)
    · cases h

theorem tryFence_parts {s lang code : List TChar} {n : Nat}
    (h : tryFence s = some (lang, code, n)) :
    (∀ x ∈ lang, pyWord x.ch) ∧ (∀ x ∈ code, x ∈ s) := by
  unfold tryFence at h
  by_cases h1 : isTriple s = true
  case neg => rw [if_neg h1] at h; cases h
  rw [if_pos h1] at h
  simp only at h
  split at h
  · rename_i u r2 heq
    by_cases h2 : u.ch = '\n'
    case neg => rw [if_neg h2] at h; cases h
    rw [if_pos h2] at h
    cases hft : findTriple r2 with
    | none => rw [hft] at h; cases h
    | some i =>
      rw [hft] at h
      obtain ⟨rfl, rfl, rfl⟩ := Prod.mk.injEq .. ▸ Option.some.inj h
      refine ⟨?_, ?_⟩
      · intro x hx
        exact @List.mem_takeWhile_imp TChar (fun z => pyWord z.ch)
          (s.drop 3) x hx
      · intro x hx
        have hx2 : x ∈ r2 := List.take_subset _ _ hx
        have hx3 : x ∈ ((s.drop 3).drop
            ((s.drop 3).takeWhile (fun x => pyWord x.ch)).length) := by
          rw [heq]
          exact List.mem_cons_of_mem _ hx2
        exact List.drop_subset _ _ (List.drop_subset _ _ hx3)
  · cases h

theorem mdlinkGo_srcOK :
    ∀ (fuel : Nat) (s : List TChar), (∀ x ∈ s, srcOK x) →
      ∀ y ∈ mdlinkGo fuel s, srcOK y
  | 0, s, hs => by simp [mdlinkGo]
  | _ + 1, [], hs => by simp [mdlinkGo]
  | fuel + 1, t :: rest, hs => by
    intro y hy
    rw [mdlinkGo] at hy
    revert hy
    cases h : tryMdlink (t :: rest) with
    | some v =>
      obtain ⟨lab, url, n⟩ := v
      intro hy
      simp only [List.append_assoc, List.mem_append] at hy
      rcases hy with hy | hy | hy | hy | hy | hy
      · exact tLit_srcOK _ y hy
      · exact hs y ((tryMdlink_sub h).2 y hy)
      · exact tLit_srcOK _ y hy
      · exact hs y ((tryMdlink_sub h).1 y hy)
      · exact tLit_srcOK _ y hy
      · exact mdlinkGo_srcOK fuel _
          (fun x hx => hs x (List.drop_subset _ _ hx)) y hy
    | none =>
      intro hy
      rcases List.mem_cons.mp hy with rfl | hy
      · exact hs y (List.mem_cons_self _ _)
      · exact mdlinkGo_srcOK fuel rest
          (fun x hx => hs x (List.mem_cons_of_mem _ hx)) y hy

theorem rawurlGo_srcOK :
    ∀ (fuel : Nat) (prev : Option Char) (s : List TChar),
      (∀ x ∈ s, srcOK x) → ∀ y ∈ rawurlGo fuel prev s, srcOK y
  | 0, _, s, hs => by simp [rawurlGo]
  | _ + 1, _, [], hs => by simp [rawurlGo]
  | fuel + 1, prev, t :: rest, hs => by
    intro y hy
    rw [rawurlGo] at hy
    revert hy
    by_cases hb : prev = some (Char.ofNat 34) ∨ prev = some (Char.ofNat 39) ∨
        prev = some '>'
    · rw [if_pos hb]
      intro hy
      rcases List.mem_cons.mp hy with rfl | hy
      · exact hs y (List.mem_cons_self _ _)
      · exact rawurlGo_srcOK fuel _ rest
          (fun x hx => hs x (List.mem_cons_of_mem _ hx)) y hy
    · rw [if_neg hb]
      cases h : tryRawurl (t :: rest) with
      | some v =>
        obtain ⟨url, n⟩ := v
        intro hy
        simp only [List.append_assoc, List.mem_append] at hy
        rcases hy with hy | hy | hy | hy | hy | hy
        · exact tLit_srcOK _ y hy
        · exact hs y (tryRawurl_sub h y hy)
        · exact tLit_srcOK _ y hy
        · exact hs y (tryRawurl_sub h y hy)
        · exact tLit_srcOK _ y hy
        · exact rawurlGo_srcOK fuel _ _
            (fun x hx => hs x (List.drop_subset _ _ hx)) y hy
      | none =>
        intro hy
        rcases List.mem_cons.mp hy with rfl | hy
        · exact hs y (List.mem_cons_self _ _)
        · exact rawurlGo_srcOK fuel _ rest
            (fun x hx => hs x (List.mem_cons_of_mem _ hx)) y hy

theorem mdLinksT_srcOK (s : List TChar) (hs : ∀ x ∈ s, srcOK x) :
    ∀ y ∈ mdLinksT s, srcOK y := by
  intro y hy
  exact rawurlGo_srcOK _ none _
    (fun x hx => mdlinkGo_srcOK _ s hs x hx) y hy

theorem inlineGo_srcOK :
    ∀ (fuel : Nat) (acc s : List TChar), ∀ y ∈ inlineGo fuel acc s, srcOK y
  | 0, _, _ => by simp [inlineGo]
  | _ + 1, acc, [] => by
    intro y hy
    rw [inlineGo] at hy
    exact mdLinksT_srcOK _ (hEscapeT_srcOK _) y hy
  | fuel + 1, acc, t :: rest => by
    intro y hy
    rw [inlineGo] at hy
    revert hy
    cases h : tryInline (t :: rest) with
    | some v =>
      obtain ⟨content, n⟩ := v
      intro hy
      simp only [List.append_assoc, List.mem_append] at hy
      rcases hy with hy | hy | hy | hy | hy
      · exact mdLinksT_srcOK _ (hEscapeT_srcOK _) y hy
      · exact tLit_srcOK _ y hy
      · exact hEscapeT_srcOK _ y hy
      · exact tLit_srcOK _ y hy
      · exact inlineGo_srcOK fuel [] _ y hy
    | none =>
      intro hy
      exact inlineGo_srcOK fuel (t :: acc) rest y hy

theorem fenceGo_srcOK :
    ∀ (fuel : Nat) (acc s : List TChar), ∀ y ∈ fenceGo fuel acc s, srcOK y
  | 0, _, _ => by simp [fenceGo]
  | _ + 1, acc, [] => by
    intro y hy
    rw [fenceGo] at hy
    exact inlineGo_srcOK _ _ _ y hy
  | fuel + 1, acc, t :: rest => by
    intro y hy
    rw [fenceGo] at hy
    revert hy
    cases h : tryFence (t :: rest) with
    | some v =>
      obtain ⟨lang, code, n⟩ := v
      intro hy
      simp only [List.append_assoc, List.mem_append] at hy
      rcases hy with hy | hy | hy | hy | hy | hy | hy
      · exact inlineGo_srcOK _ _ _ y hy
      · exact tLit_srcOK _ y hy
      · exact fun _ => pyWord_safe ((tryFence_parts h).1 y hy)
      · exact tLit_srcOK _ y hy
      · exact hEscapeT_srcOK _ y hy
      · exact tLit_srcOK _ y hy
      · exact fenceGo_srcOK fuel [] _ y hy
    | none =>
      intro hy
      have hy' : y ∈ fenceGo fuel (t :: acc) rest := hy
      exact fenceGo_srcOK fuel (t :: acc) rest y hy'

/-- C5: escaping safety of the HTML body formatter.  Every character of
`format_body`'s output that was copied from the original message body
(provenance bit `src = true`) is none of `<`, `>`, `&`: raw markup in the
output can only come from the formatter's own template literals (the
anchor, code and pre elements) and from the entity escapes.  Escaping is
applied before link substitution by construction (`inlineGo` escapes each
text piece before `mdLinksT` processes it), and `format_body` is the
provenance-erasure of `formatBodyT`, stated as the second conjunct. -/
theorem claim_c5 (body : String) :
    (∀ x ∈ formatBodyT body.data, x.src = true →
      x.ch ≠ '<' ∧ x.ch ≠ '>' ∧ x.ch ≠ '&') ∧
    format_body body = ⟨(formatBodyT body.data).map TChar.ch⟩ := by
  refine ⟨?_, rfl⟩
  intro x hx
  exact fenceGo_srcOK _ [] _ x hx

/-- C5 witness. -/
theorem c5_witness :
    (⟨'a', true⟩ : TChar) ∈ formatBodyT "a<b".data ∧
    (('a' : Char) ≠ '<' ∧ ('a' : Char) ≠ '>' ∧ ('a' : Char) ≠ '&') :=
  ⟨by decide, (claim_c5 "a<b").1 ⟨'a', true⟩ (by decide) rfl⟩

theorem resolveOne_id (l : List Event) (e : Event) :
    (resolveOne l e).ev.event_id = e.event_id := by
  unfold resolveOne
  cases (editsTo l e.event_id).getLast? <;> rfl

theorem resolveOne_rel (l : List Event) (e : Event) :
    relOf (resolveOne l e).ev = relOf e := by
  unfold resolveOne
  cases (editsTo l e.event_id).getLast? <;> rfl

theorem resolveOne_ts (l : List Event) (e : Event) :
    (resolveOne l e).ev.origin_server_ts = e.origin_server_ts := by
  unfold resolveOne
  cases (editsTo l e.event_id).getLast? <;> rfl

theorem editsTo_of_not_edit (l₁ l₂ : List Event) (e : Event)
    (hne : isEdit e = false) (t : String) :
    editsTo (l₁ ++ e :: l₂) t = editsTo (l₁ ++ l₂) t := by
  unfold editsTo
  rw [List.filter_append, List.filter_append, List.filter_cons_of_neg]
  simp [isEditTo, hne]

theorem resolveOne_of_not_edit (l₁ l₂ : List Event) (e : Event)
    (hne : isEdit e = false) (f : Event) :
    resolveOne (l₁ ++ e :: l₂) f = resolveOne (l₁ ++ l₂) f := by
  unfold resolveOne
  rw [editsTo_of_not_edit l₁ l₂ e hne]

theorem renderSeq_fst_mem {l : List Event} {x : Resolved} {lvl : Nat}
    (h : (x, lvl) ∈ renderSeq l) : x ∈ eventsOf l := by
  rcases renderSeq_mem_cases h with ⟨_, hmem⟩ | ⟨_, _, _, _, _, hbyid⟩
  · exact (mem_rootsOf.mp hmem).1
  · exact (byId_eq_some hbyid).1

theorem eventsOf_orphan_split (l₁ l₂ : List Event) (e : Event)
    (hm : e.type = "m.room.message") (hne : isEdit e = false)
    (hnd : OrigNodup (l₁ ++ e :: l₂)) :
    eventsOf (l₁ ++ e :: l₂) =
      (originalsOf l₁).map (resolveOne (l₁ ++ l₂)) ++
        resolveOne (l₁ ++ l₂) e ::
          (originalsOf l₂).map (resolveOne (l₁ ++ l₂)) ∧
    eventsOf (l₁ ++ l₂) =
      (originalsOf l₁).map (resolveOne (l₁ ++ l₂)) ++
        (originalsOf l₂).map (resolveOne (l₁ ++ l₂)) ∧
    OrigNodup (l₁ ++ l₂) := by
  have horig : isOriginal e = true := by simp [isOriginal, hm, hne]
  have hsplit : originalsOf (l₁ ++ e :: l₂) =
      originalsOf l₁ ++ e :: originalsOf l₂ := by
    unfold originalsOf
    rw [List.filter_append, List.filter_cons_of_pos horig]
  have hsplit' : originalsOf (l₁ ++ l₂) =
      originalsOf l₁ ++ originalsOf l₂ := by
    unfold originalsOf
    rw [List.filter_append]
  have hsub : (originalsOf (l₁ ++ l₂)).Sublist (originalsOf (l₁ ++ e :: l₂)) := by
    rw [hsplit, hsplit']
    exact (List.sublist_cons_self e (originalsOf l₂)).append_left _
  have hnd' : OrigNodup (l₁ ++ l₂) := hnd.sublist hsub
  refine ⟨?_, ?_, hnd'⟩
  · rw [eventsOf_eq _ hnd, hsplit, List.map_append, List.map_cons]
    rw [show (originalsOf l₁).map (resolveOne (l₁ ++ e :: l₂)) =
        (originalsOf l₁).map (resolveOne (l₁ ++ l₂)) from
      List.map_congr_left (fun f _ => resolveOne_of_not_edit l₁ l₂ e hne f)]
    rw [show (originalsOf l₂).map (resolveOne (l₁ ++ e :: l₂)) =
        (originalsOf l₂).map (resolveOne (l₁ ++ l₂)) from
      List.map_congr_left (fun f _ => resolveOne_of_not_edit l₁ l₂ e hne f)]
    rw [resolveOne_of_not_edit l₁ l₂ e hne e]
  · rw [eventsOf_eq _ hnd', hsplit', List.map_append]

theorem orphan_invariant (l₁ l₂ : List Event) (e : Event) (t : String)
    (hm : e.type = "m.room.message") (hne : isEdit e = false)
    (ht : (relOf e).rel_type = some "m.thread")
    (htgt : (relOf e).event_id = some t)
    (hnd : OrigNodup (l₁ ++ e :: l₂))
    (horph : ∀ r ∈ rootsOf (l₁ ++ e :: l₂), r.ev.event_id ≠ t) :
    rootsOf (l₁ ++ e :: l₂) = rootsOf (l₁ ++ l₂) ∧
    renderSeq (l₁ ++ e :: l₂) = renderSeq (l₁ ++ l₂) := by
  obtain ⟨hEv, hEv', hnd'⟩ := eventsOf_orphan_split l₁ l₂ e hm hne hnd
  set A := (originalsOf l₁).map (resolveOne (l₁ ++ l₂)) with hA
  set B := (originalsOf l₂).map (resolveOne (l₁ ++ l₂)) with hB
  set re := resolveOne (l₁ ++ l₂) e with hre
  have hnodup : (A ++ re :: B).Pairwise
      (fun a b => a.ev.event_id ≠ b.ev.event_id) := by
    rw [← hEv]
    exact eventsOf_ids_nodup _
  have hre_id : re.ev.event_id = e.event_id := resolveOne_id _ _
  have hre_rel : relOf re.ev = relOf e := resolveOne_rel _ _
  have hids : ∀ r ∈ A ++ B, r.ev.event_id ≠ e.event_id := by
    intro r hr
    rcases List.mem_append.mp hr with h | h
    · have := (List.pairwise_append.mp hnodup).2.2 r h re
        (List.mem_cons_self _ _)
      rwa [hre_id] at this
    · have h2 := (List.pairwise_append.mp hnodup).2.1
      have h3 := (List.pairwise_cons.mp h2).1 r h
      rw [hre_id] at h3
      exact fun hc => h3 hc.symm
  have hmemL : ∀ r : Resolved, r ∈ A ++ re :: B ↔ r ∈ A ++ B ∨ r = re := by
    intro r
    simp only [List.mem_append, List.mem_cons]
    tauto
  have hchild : ∀ x, x ∈ childIds (A ++ re :: B) ↔
      x ∈ childIds (A ++ B) ∨ x = e.event_id := by
    intro x
    rw [mem_childIds, mem_childIds]
    constructor
    · rintro ⟨f, hf, hft, hfid⟩
      rcases (hmemL f).mp hf with hf' | rfl
      · exact Or.inl ⟨f, hf', hft, hfid⟩
      · exact Or.inr (by rw [← hfid, hre_id])
    · rintro (⟨f, hf, hft, hfid⟩ | rfl)
      · exact ⟨f, (hmemL f).mpr (Or.inl hf), hft, hfid⟩
      · exact ⟨re, (hmemL re).mpr (Or.inr rfl),
          by rw [hre_rel]; exact ht, hre_id⟩
  have hre_child : re.ev.event_id ∈ childIds (A ++ re :: B) :=
    (mem_childIds _ _).mpr ⟨re, (hmemL re).mpr (Or.inr rfl),
      by rw [hre_rel]; exact ht, rfl⟩
  have hfilter : (A ++ re :: B).filter
      (fun r => ¬ (childIds (A ++ re :: B)).contains r.ev.event_id) =
      (A ++ B).filter
      (fun r => ¬ (childIds (A ++ B)).contains r.ev.event_id) := by
    rw [List.filter_append, List.filter_cons_of_neg (by simpa using hre_child),
      ← List.filter_append]
    refine List.filter_congr (fun r hr => ?_)
    have hiff : r.ev.event_id ∈ childIds (A ++ re :: B) ↔
        r.ev.event_id ∈ childIds (A ++ B) := by
      rw [hchild]
      constructor
      · rintro (h | h)
        · exact h
        · exact absurd h (hids r hr)
      · exact Or.inl
    cases hc1 : (childIds (A ++ re :: B)).contains r.ev.event_id <;>
      cases hc2 : (childIds (A ++ B)).contains r.ev.event_id <;> simp_all
  have hroots : rootsOf (l₁ ++ e :: l₂) = rootsOf (l₁ ++ l₂) := by
    unfold rootsOf
    rw [hEv, hEv', hfilter]
  refine ⟨hroots, ?_⟩
  have hbid : ∀ c, c ≠ e.event_id →
      byId (A ++ re :: B) c = byId (A ++ B) c := by
    intro c hc
    unfold byId
    rw [List.find?_append, List.find?_append,
      List.find?_cons_of_neg _ (by
        simp only [hre_id, beq_iff_eq, decide_eq_true_eq]
        exact fun h => hc h.symm)]
  have hkidmem : ∀ rootId c, c ∈ kidsOf (A ++ B) rootId →
      c ≠ e.event_id := by
    intro rootId c hc
    rw [kidsOf_eq] at hc
    obtain ⟨f, hf, rfl⟩ := List.mem_map.mp hc
    exact hids f (List.mem_filter.mp hf).1
  have hkids : ∀ r : Resolved, r.ev.event_id ≠ t →
      kidsOf (A ++ re :: B) r.ev.event_id =
        kidsOf (A ++ B) r.ev.event_id := by
    intro r hrt
    rw [kidsOf_eq, kidsOf_eq]
    unfold kidsFilter
    rw [List.filter_append, List.filter_cons_of_neg (by
        simp only [hre_rel, ht, htgt, Option.getD_some, beq_iff_eq,
          decide_eq_true_eq, Bool.and_eq_true, not_and]
        intro _ h
        exact hrt h.symm),
      ← List.filter_append]
  have hrender : renderSeq (l₁ ++ e :: l₂) = renderSeq (l₁ ++ l₂) := by
    unfold renderSeq
    rw [hroots]
    refine List.flatMap_congr (fun r hr => ?_)
    have hrt : r.ev.event_id ≠ t := horph r (by rw [hroots]; exact hr)
    rw [hEv, hEv', hkids r hrt]
    have hsort : List.insertionSort (kidLe (A ++ re :: B))
        (kidsOf (A ++ B) r.ev.event_id) =
        List.insertionSort (kidLe (A ++ B))
        (kidsOf (A ++ B) r.ev.event_id) := by
      refine insertionSort_congr _ _ _ (fun x y hx hy => ?_)
      unfold kidLe kidTs
      rw [hbid x (hkidmem _ x hx), hbid y (hkidmem _ y hy)]
    rw [hsort]
    refine congrArg _ (congrArg _ ?_)
    refine List.filterMap_congr (fun c hc => ?_)
    have hc' : c ∈ kidsOf (A ++ B) r.ev.event_id :=
      (List.perm_insertionSort (kidLe (A ++ B)) _).mem_iff.mp hc
    exact hbid c (hkidmem _ c hc')
  exact hrender

/-- C8: a reply whose thread target is not among the root ids is an
orphan: it is dropped.  It never appears in the rendering (so in neither
output document), and removing it from the input leaves the rendering and
both documents byte-identical, so its presence does not alter the
rendering of the other messages; no error is raised (the pipeline is
total).  Hypotheses: the batch id-uniqueness invariant, the orphan is a
message-type non-edit event with a thread relation to `t`, and `t` is not
the id of any root. -/
theorem claim_c8 (l₁ l₂ : List Event) (e : Event) (t : String)
    (color : String → String) (title : String) (now : Nat)
    (hm : e.type = "m.room.message") (hne : isEdit e = false)
    (ht : (relOf e).rel_type = some "m.thread")
    (htgt : (relOf e).event_id = some t)
    (hnd : OrigNodup (l₁ ++ e :: l₂))
    (horph : ∀ r ∈ rootsOf (l₁ ++ e :: l₂), r.ev.event_id ≠ t) :
    (∀ p ∈ renderSeq (l₁ ++ e :: l₂), p.1.ev.event_id ≠ e.event_id) ∧
    renderSeq (l₁ ++ e :: l₂) = renderSeq (l₁ ++ l₂) ∧
    txtDoc title now (l₁ ++ e :: l₂) = txtDoc title now (l₁ ++ l₂) ∧
    htmlDoc color title now (l₁ ++ e :: l₂) =
      htmlDoc color title now (l₁ ++ l₂) := by
  obtain ⟨hEv, hEv', hnd'⟩ := eventsOf_orphan_split l₁ l₂ e hm hne hnd
  obtain ⟨hroots, hrender⟩ :=
    orphan_invariant l₁ l₂ e t hm hne ht htgt hnd horph
  have hnodup : ((originalsOf l₁).map (resolveOne (l₁ ++ l₂)) ++
      resolveOne (l₁ ++ l₂) e ::
        (originalsOf l₂).map (resolveOne (l₁ ++ l₂))).Pairwise
      (fun a b => a.ev.event_id ≠ b.ev.event_id) := by
    rw [← hEv]
    exact eventsOf_ids_nodup _
  have hre_id : (resolveOne (l₁ ++ l₂) e).ev.event_id = e.event_id :=
    resolveOne_id _ _
  have hids : ∀ r ∈ eventsOf (l₁ ++ l₂), r.ev.event_id ≠ e.event_id := by
    intro r hr
    rw [hEv'] at hr
    rcases List.mem_append.mp hr with h | h
    · have := (List.pairwise_append.mp hnodup).2.2 r h
        (resolveOne (l₁ ++ l₂) e) (List.mem_cons_self _ _)
      rwa [hre_id] at this
    · have h2 := (List.pairwise_append.mp hnodup).2.1
      have h3 := (List.pairwise_cons.mp h2).1 r h
      rw [hre_id] at h3
      exact fun hc => h3 hc.symm
  refine ⟨?_, hrender, ?_, ?_⟩
  · intro p hp
    rw [hrender] at hp
    exact hids p.1 (renderSeq_fst_mem hp)
  · unfold txtDoc txtLines
    rw [hrender]
  · unfold htmlDoc htmlLinesOf
    rw [hrender]

/-- C8 witness. -/
theorem c8_witness :
    (∀ p ∈ renderSeq ([exHello] ++ exOrphan :: []),
      p.1.ev.event_id ≠ exOrphan.event_id) ∧
    renderSeq ([exHello] ++ exOrphan :: []) = renderSeq ([exHello] ++ []) ∧
    txtDoc "R" 3 ([exHello] ++ exOrphan :: []) =
      txtDoc "R" 3 ([exHello] ++ []) ∧
    htmlDoc (fun _ => "#abc") "R" 3 ([exHello] ++ exOrphan :: []) =
      htmlDoc (fun _ => "#abc") "R" 3 ([exHello] ++ []) :=
  claim_c8 [exHello] [] exOrphan "$zz" (fun _ => "#abc") "R" 3
    rfl rfl rfl rfl (by unfold OrigNodup; decide) (by decide)

theorem editsTo_sub_pred {l : List Event} {t : String} {e : Event}
    (h : e ∈ editsTo l t) :
    e.type = "m.room.message" ∧ isEdit e = true ∧ editTarget e = some t := by
  have hp := List.of_mem_filter h
  simp only [isEditTo, Bool.and_eq_true, beq_iff_eq] at hp
  exact ⟨hp.1.1, hp.1.2, hp.2⟩

theorem editsTo_len_le {l : List Event} (hed : EditsNodup l) (t : String) :
    (editsTo l t).length ≤ 1 := by
  cases h : editsTo l t with
  | nil => simp
  | cons a tail =>
    cases tail with
    | nil => simp
    | cons b rest =>
      exfalso
      have hsub : (editsTo l t).Sublist l := List.filter_sublist l
      have hpw : (editsTo l t).Pairwise (fun a b =>
          (a.type = "m.room.message" ∧ isEdit a = true) →
          (b.type = "m.room.message" ∧ isEdit b = true) →
          editTarget a ≠ editTarget b) := hed.sublist hsub
      rw [h] at hpw
      have hab := (List.pairwise_cons.mp hpw).1 b (List.mem_cons_self _ _)
      have ha := editsTo_sub_pred (l := l) (t := t) (by rw [h]; exact List.mem_cons_self _ _)
      have hb := editsTo_sub_pred (l := l) (t := t)
        (by rw [h]; exact List.mem_cons_of_mem _ (List.mem_cons_self _ _))
      exact hab ⟨ha.1, ha.2.1⟩ ⟨hb.1, hb.2.1⟩ (ha.2.2.trans hb.2.2.symm)

theorem perm_eq_of_len_le {α : Type} {l₁ l₂ : List α}
    (hperm : List.Perm l₁ l₂) (hlen : l₁.length ≤ 1) : l₁ = l₂ := by
  cases l₁ with
  | nil => exact (hperm.nil_eq).symm ▸ rfl
  | cons a tail =>
    cases tail with
    | nil => exact (List.singleton_perm.mp hperm).symm.symm
    | cons b rest => simp at hlen

theorem editsTo_perm_eq {l₁ l₂ : List Event} (hperm : List.Perm l₁ l₂)
    (hed : EditsNodup l₁) (t : String) : editsTo l₁ t = editsTo l₂ t :=
  perm_eq_of_len_le (hperm.filter _) (editsTo_len_le hed t)

theorem orig_nodup_perm {l₁ l₂ : List Event} (hperm : List.Perm l₁ l₂)
    (hoid : OrigNodup l₁) : OrigNodup l₂ := by
  unfold OrigNodup at *
  exact ((hperm.filter isOriginal).pairwise_iff
    (fun h => fun hc => h hc.symm)).mp hoid

theorem eventsOf_perm_maps {l₁ l₂ : List Event} (hperm : List.Perm l₁ l₂)
    (hoid : OrigNodup l₁) (hed : EditsNodup l₁) :
    eventsOf l₁ = (originalsOf l₁).map (resolveOne l₁) ∧
    eventsOf l₂ = (originalsOf l₂).map (resolveOne l₁) ∧
    List.Perm (eventsOf l₁) (eventsOf l₂) := by
  have h1 : eventsOf l₁ = (originalsOf l₁).map (resolveOne l₁) :=
    eventsOf_eq l₁ hoid
  have hres : ∀ f : Event, resolveOne l₂ f = resolveOne l₁ f := by
    intro f
    unfold resolveOne
    rw [editsTo_perm_eq hperm hed]
  have h2 : eventsOf l₂ = (originalsOf l₂).map (resolveOne l₁) := by
    rw [eventsOf_eq l₂ (orig_nodup_perm hperm hoid)]
    exact List.map_congr_left (fun f _ => hres f)
  refine ⟨h1, h2, ?_⟩
  rw [h1, h2]
  exact (hperm.filter isOriginal).map _

theorem byId_perm {es₁ es₂ : List Resolved} (hperm : List.Perm es₁ es₂)
    (hnd₁ : es₁.Pairwise (fun a b => a.ev.event_id ≠ b.ev.event_id))
    (c : String) : byId es₁ c = byId es₂ c := by
  have hnd₂ : es₂.Pairwise (fun a b => a.ev.event_id ≠ b.ev.event_id) :=
    (hperm.pairwise_iff (fun h => fun hc => h hc.symm)).mp hnd₁
  cases h1 : byId es₁ c with
  | some r =>
    obtain ⟨hmem, hid⟩ := byId_eq_some h1
    have : byId es₂ r.ev.event_id = some r :=
      byId_of_mem hnd₂ (hperm.mem_iff.mp hmem)
    rw [← hid, this]
  | none =>
    cases h2 : byId es₂ c with
    | none => rfl
    | some r =>
      obtain ⟨hmem, hid⟩ := byId_eq_some h2
      have : byId es₁ r.ev.event_id = some r :=
        byId_of_mem hnd₁ (hperm.mem_iff.mpr hmem)
      rw [hid] at this
      rw [h1] at this
      cases this

theorem contains_congr_of_mem_iff {l₁ l₂ : List String}
    (h : ∀ x, x ∈ l₁ ↔ x ∈ l₂) (a : String) :
    l₁.contains a = l₂.contains a := by
  cases hc1 : l₁.contains a <;> cases hc2 : l₂.contains a <;> simp_all

/-- C3 counterexample: the pipeline output is not invariant under
permutations of the input: two equal-timestamp roots swap their rendered
order (the stable sort keeps arrival order), so a permuted input yields a
different plain-text document. -/
theorem c3_counterexample :
    List.Perm [exTieA, exTieB] [exTieB, exTieA] ∧
    txtDoc "R" 0 [exTieA, exTieB] ≠ txtDoc "R" 0 [exTieB, exTieA] := by
  refine ⟨List.Perm.swap _ _ _, by decide⟩

/-- C3 (amended): the pipeline output is invariant under permutations of
the input sequence provided the batch is unambiguous: the original message
events have pairwise-distinct ids and pairwise-distinct timestamps, and no
two edit events share a target.  When timestamps tie or several edits
target one original, arrival order determines the output (see the
stable-sort and last-edit-wins behaviour), so full permutation invariance
does not hold. -/
theorem claim_c3 (l₁ l₂ : List Event) (color : String → String)
    (title : String) (now : Nat) (hperm : List.Perm l₁ l₂)
    (hoid : OrigNodup l₁) (hed : EditsNodup l₁) (hts : TsNodup l₁) :
    txtDoc title now l₁ = txtDoc title now l₂ ∧
    htmlDoc color title now l₁ = htmlDoc color title now l₂ := by
  obtain ⟨h1, h2, hev⟩ := eventsOf_perm_maps hperm hoid hed
  have hnd₁ := eventsOf_ids_nodup l₁
  have hnd₂ := eventsOf_ids_nodup l₂
  have hbid : ∀ c, byId (eventsOf l₁) c = byId (eventsOf l₂) c :=
    byId_perm hev hnd₁
  have hbidf : byId (eventsOf l₁) = byId (eventsOf l₂) := funext hbid
  have hkidts : kidTs (eventsOf l₁) = kidTs (eventsOf l₂) := by
    funext c
    unfold kidTs
    rw [hbid]
  have hkidle : kidLe (eventsOf l₁) = kidLe (eventsOf l₂) := by
    unfold kidLe
    rw [hkidts]
  have hts₁ : (eventsOf l₁).Pairwise
      (fun a b => a.ev.origin_server_ts ≠ b.ev.origin_server_ts) := by
    rw [h1]
    refine List.pairwise_map.mpr (hts.imp ?_)
    intro a b hab
    rw [resolveOne_ts, resolveOne_ts]
    exact hab
  have hts₂ : (eventsOf l₂).Pairwise
      (fun a b => a.ev.origin_server_ts ≠ b.ev.origin_server_ts) :=
    (hev.pairwise_iff (fun h => fun hc => h hc.symm)).mp hts₁
  have hchild : ∀ x, x ∈ childIds (eventsOf l₁) ↔
      x ∈ childIds (eventsOf l₂) := by
    intro x
    rw [mem_childIds, mem_childIds]
    constructor
    · rintro ⟨f, hf, h3, h4⟩
      exact ⟨f, hev.mem_iff.mp hf, h3, h4⟩
    · rintro ⟨f, hf, h3, h4⟩
      exact ⟨f, hev.mem_iff.mpr hf, h3, h4⟩
  have hpre : List.Perm
      ((eventsOf l₁).filter
        (fun r => ¬ (childIds (eventsOf l₁)).contains r.ev.event_id))
      ((eventsOf l₂).filter
        (fun r => ¬ (childIds (eventsOf l₂)).contains r.ev.event_id)) := by
    rw [show ((eventsOf l₂).filter
        (fun r => ¬ (childIds (eventsOf l₂)).contains r.ev.event_id)) =
        ((eventsOf l₂).filter
        (fun r => ¬ (childIds (eventsOf l₁)).contains r.ev.event_id)) from
      List.filter_congr (fun r _ => by
        rw [contains_congr_of_mem_iff hchild r.ev.event_id])]
    exact hev.filter _
  have hroots : rootsOf l₁ = rootsOf l₂ := by
    unfold rootsOf
    refine perm_sorted_key_unique (fun r => r.ev.origin_server_ts) ?_ ?_ ?_
    · exact ((List.perm_insertionSort tsLe _).trans hpre).trans
        (List.perm_insertionSort tsLe _).symm
    · refine pairwise_lt_of_le_of_ne _ (List.sorted_insertionSort tsLe _) ?_
      exact (((List.perm_insertionSort tsLe _).pairwise_iff
        (fun h => fun hc => h hc.symm)).mpr
        (hts₁.sublist (List.filter_sublist _)))
    · refine pairwise_lt_of_le_of_ne _ (List.sorted_insertionSort tsLe _) ?_
      exact (((List.perm_insertionSort tsLe _).pairwise_iff
        (fun h => fun hc => h hc.symm)).mpr
        (hts₂.sublist (List.filter_sublist _)))
  have hrender : renderSeq l₁ = renderSeq l₂ := by
    unfold renderSeq
    rw [hroots, hbidf]
    refine List.flatMap_congr (fun r hr => ?_)
    refine congrArg _ (congrArg _ (congrArg _ ?_))
    rw [show List.insertionSort (kidLe (eventsOf l₁))
        (kidsOf (eventsOf l₁) r.ev.event_id) =
        List.insertionSort (kidLe (eventsOf l₂))
        (kidsOf (eventsOf l₁) r.ev.event_id) from
      insertionSort_congr _ _ _ (fun x y _ _ => by
        unfold kidLe
        rw [hkidts])]
    have kperm : List.Perm (kidsOf (eventsOf l₁) r.ev.event_id)
        (kidsOf (eventsOf l₂) r.ev.event_id) := by
      rw [kidsOf_eq, kidsOf_eq]
      exact (hev.filter _).map _
    have hkeys₂ : (kidsOf (eventsOf l₂) r.ev.event_id).Pairwise
        (fun a b => kidTs (eventsOf l₂) a ≠ kidTs (eventsOf l₂) b) := by
      rw [kidsOf_eq]
      unfold kidsFilter
      refine List.pairwise_map.mpr ?_
      refine List.Pairwise.imp_of_mem ?_
        (hts₂.sublist (List.filter_sublist _))
      intro a b ha hb hab
      have ha' : a ∈ eventsOf l₂ := (List.mem_filter.mp ha).1
      have hb' : b ∈ eventsOf l₂ := (List.mem_filter.mp hb).1
      unfold kidTs
      rw [byId_of_mem hnd₂ ha', byId_of_mem hnd₂ hb']
      simpa using hab
    have hkeys₁ : (kidsOf (eventsOf l₁) r.ev.event_id).Pairwise
        (fun a b => kidTs (eventsOf l₂) a ≠ kidTs (eventsOf l₂) b) :=
      (kperm.pairwise_iff (fun h => fun hc => h hc.symm)).mpr hkeys₂
    refine perm_sorted_key_unique (kidTs (eventsOf l₂)) ?_ ?_ ?_
    · exact ((List.perm_insertionSort _ _).trans kperm).trans
        (List.perm_insertionSort _ _).symm
    · refine pairwise_lt_of_le_of_ne _
        (List.sorted_insertionSort (kidLe (eventsOf l₂)) _) ?_
      exact ((List.perm_insertionSort _ _).pairwise_iff
        (fun h => fun hc => h hc.symm)).mpr hkeys₁
    · refine pairwise_lt_of_le_of_ne _
        (List.sorted_insertionSort (kidLe (eventsOf l₂)) _) ?_
      exact ((List.perm_insertionSort _ _).pairwise_iff
        (fun h => fun hc => h hc.symm)).mpr hkeys₂
  constructor
  · unfold txtDoc txtLines
    rw [hrender]
  · unfold htmlDoc htmlLinesOf
    rw [hrender]

/-- C3 witness. -/
theorem c3_witness :
    txtDoc "W" 2 [exHello, exReply] = txtDoc "W" 2 [exReply, exHello] ∧
    htmlDoc (fun _ => "#000") "W" 2 [exHello, exReply] =
      htmlDoc (fun _ => "#000") "W" 2 [exReply, exHello] :=
  claim_c3 [exHello, exReply] [exReply, exHello] (fun _ => "#000") "W" 2
    (List.Perm.swap _ _ _) (by unfold OrigNodup; decide)
    (by unfold EditsNodup; decide) (by unfold TsNodup; decide)
